import Mathlib

/-!
Verification of the extraction and reconciliation engine of `scraper.py`
(Top of the Rock ticket scraper).

The development shallowly embeds the core functions of the source:

* `_collect_slots_from_json` (lines 48-73)  →  `collectSlotsFromJson`
* `_parse_currency`          (lines 76-78)  →  `parseCurrency`
* `_collect_slots_from_dom`  (lines 81-117) →  `collectSlotsFromDom`
* the merge/dedup/sort step of `scrape_top_of_rock` (lines 184-191)
                                            →  `reconcileSlots`

Strings are modelled as `List Char` (`Str`).  Python `re.search` over the
three concrete patterns used by the source is modelled by explicit
leftmost-match-with-backtracking scanners (`searchTime`, `domSearchTime`,
`searchCurrency`), character classes restricted to ASCII (the inputs the
claims are about are ASCII).  Python `str()` of a decoded JSON value is
modelled by `pyStr` (with `repr` for values nested inside containers;
string `repr` escapes quotes, backslashes and \n, \r, \t - other
non-printable escapes are not needed by any claim).  JSON numbers are
modelled as integers; no claim depends on float formatting.  Python dicts
are modelled as ordered field lists (insertion order, unique keys), the
dict built by `sorted(...)`/dedup assignment is modelled by an ordered
association list with in-place value overwrite, and Python's `sorted`
(a stable ascending sort) is modelled by a stable insertion sort.
-/

abbrev Str := List Char

/-- ASCII whitespace, as stripped by Python `str.strip` and matched by `\s`. -/
def isSpaceChar (c : Char) : Bool :=
  c == ' ' || c == '\t' || c == '\n' || c == '\r' || c == '\x0b' || c == '\x0c'

/-- Python `str.strip()`: drop leading and trailing whitespace. -/
def strip (s : Str) : Str :=
  (s.dropWhile isSpaceChar).rdropWhile isSpaceChar

/-- Python `str.lower()` (ASCII). -/
def lowerStr (s : Str) : Str := s.map Char.toLower

/-- Python `str.upper()` (ASCII). -/
def upperStr (s : Str) : Str := s.map Char.toUpper

/-- Python regex `\w` (ASCII part), used for `\b` word boundaries. -/
def isWordChar (c : Char) : Bool := c.isAlphanum || c == '_'

/-- Numeric value of a decimal digit character. -/
def digitVal (c : Char) : Nat := c.toNat - 48

/-- `int` of a two-digit string, as applied to matched minute digits. -/
def twoDigitVal (m1 m2 : Char) : Nat := 10 * digitVal m1 + digitVal m2

/-- `int(minute_digits)` for the minute group of the JSON time pattern. -/
def minutesVal (m : Str) : Nat :=
  match m with
  | [m1, m2] => twoDigitVal m1 m2
  | _ => 0

/-! ### JSON values (the decoded payload handed to `_collect_slots_from_json`) -/

mutual
inductive Json where
  | null : Json
  | bool : Bool → Json
  | num : Int → Json
  | str : Str → Json
  | arr : JsonList → Json
  | obj : JsonFields → Json
inductive JsonList where
  | nil : JsonList
  | cons : Json → JsonList → JsonList
inductive JsonFields where
  | nil : JsonFields
  | cons : Str → Json → JsonFields → JsonFields
end

/-- Scalars are the JSON values that are neither mappings nor sequences. -/
def Json.isScalar : Json → Bool
  | .arr _ => false
  | .obj _ => false
  | _ => true

/-! ### Python `str()` / `repr()` of a JSON value -/

/-- Quote character chosen by Python `repr` for a string. -/
def pyQuote (s : Str) : Char :=
  if s.any (fun c => c == Char.ofNat 39) && !(s.any (fun c => c == Char.ofNat 34)) then
    Char.ofNat 34
  else
    Char.ofNat 39

/-- Escaping of one character inside a Python string `repr` (quote `q`). -/
def pyEscapeChar (q c : Char) : Str :=
  if c == Char.ofNat 92 || c == q then [Char.ofNat 92, c]
  else if c == '\n' then [Char.ofNat 92, 'n']
  else if c == '\r' then [Char.ofNat 92, 'r']
  else if c == '\t' then [Char.ofNat 92, 't']
  else [c]

/-- Python `repr` of a string. -/
def pyReprStr (s : Str) : Str :=
  let q := pyQuote s
  q :: (s.map (pyEscapeChar q)).foldr (· ++ ·) [] ++ [q]

mutual
/-- Python `repr()` of a JSON value. -/
def pyRepr : Json → Str
  | .null => "None".data
  | .bool true => "True".data
  | .bool false => "False".data
  | .num n => (toString n).data
  | .str s => pyReprStr s
  | .arr items => '[' :: pyReprList items ++ [']']
  | .obj fields => Char.ofNat 123 :: pyReprFields fields ++ [Char.ofNat 125]
/-- Comma-separated `repr`s of array elements. -/
def pyReprList : JsonList → Str
  | .nil => []
  | .cons j .nil => pyRepr j
  | .cons j rest => pyRepr j ++ ',' :: ' ' :: pyReprList rest
/-- Comma-separated `repr(k): repr(v)` items of a dict. -/
def pyReprFields : JsonFields → Str
  | .nil => []
  | .cons k v .nil => pyReprStr k ++ ':' :: ' ' :: pyRepr v
  | .cons k v rest => pyReprStr k ++ ':' :: ' ' :: pyRepr v ++ ',' :: ' ' :: pyReprFields rest
end

/-- Python `str()` of a JSON value (as in `str(payload.get(time_key, ""))`). -/
def pyStr : Json → Str
  | .str s => s
  | j => pyRepr j

/-! ### `re.search(r"(\d{1,2}):(\d{2})", ...)` - the JSON time pattern.
Returns the two capture groups (hour digits, minute digits). -/

/-- Attempt with a greedy two-digit hour at the current position. -/
def tryTwoColon : Str → Option (Str × Str)
  | d1 :: d2 :: c :: m1 :: m2 :: _ =>
    if d1.isDigit && d2.isDigit && c == ':' && m1.isDigit && m2.isDigit then
      some ([d1, d2], [m1, m2])
    else none
  | _ => none

/-- Backtracked attempt with a one-digit hour at the current position. -/
def tryOneColon : Str → Option (Str × Str)
  | d1 :: c :: m1 :: m2 :: _ =>
    if d1.isDigit && c == ':' && m1.isDigit && m2.isDigit then
      some ([d1], [m1, m2])
    else none
  | _ => none

/-- Leftmost match of `(\d{1,2}):(\d{2})` (greedy hour, backtracking). -/
def searchTime : Str → Option (Str × Str)
  | [] => none
  | c :: rest =>
    match tryTwoColon (c :: rest) with
    | some r => some r
    | none =>
      match tryOneColon (c :: rest) with
      | some r => some r
      | none => searchTime rest

/-! ### `re.search(r"\b\d{1,2}:\d{2}(?:\s?[AP]M)?\b", ..., re.IGNORECASE)` -
the DOM time pattern.  Returns the whole matched token (`group(0)`). -/

/-- `\b`: the two sides differ in word-character-ness. -/
def boundaryB (prev next : Option Char) : Bool :=
  (match prev with | some c => isWordChar c | none => false)
    != (match next with | some c => isWordChar c | none => false)

/-- Meridiem with a single leading whitespace (`\s` consumed), then `\b`. -/
def merSpace : Str → Option Str
  | w :: a :: m :: r =>
    if isSpaceChar w && (a.toUpper == 'A' || a.toUpper == 'P') && m.toUpper == 'M'
        && boundaryB (some m) r.head? then
      some [w, a, m]
    else none
  | _ => none

/-- Meridiem directly after the minutes (`\s?` empty), then `\b`. -/
def merDirect : Str → Option Str
  | a :: m :: r =>
    if (a.toUpper == 'A' || a.toUpper == 'P') && m.toUpper == 'M'
        && boundaryB (some m) r.head? then
      some [a, m]
    else none
  | _ => none

/-- The optional meridiem group skipped; `\b` directly after the minutes. -/
def merNone (lastDigit : Char) (rest : Str) : Option Str :=
  if boundaryB (some lastDigit) rest.head? then some [] else none

/-- Backtracking order of `(?:\s?[AP]M)?\b` after the minute digits. -/
def afterMM (lastDigit : Char) (rest : Str) : Option Str :=
  match merSpace rest with
  | some r => some r
  | none =>
    match merDirect rest with
    | some r => some r
    | none => merNone lastDigit rest

/-- DOM pattern attempt, two-digit hour, at a position preceded by `prev`. -/
def domTryTwo (prev : Option Char) : Str → Option Str
  | d1 :: d2 :: c :: m1 :: m2 :: rest =>
    if boundaryB prev (some d1) && d1.isDigit && d2.isDigit && c == ':'
        && m1.isDigit && m2.isDigit then
      (afterMM m2 rest).map (fun extra => d1 :: d2 :: ':' :: m1 :: m2 :: extra)
    else none
  | _ => none

/-- DOM pattern attempt, one-digit hour, at a position preceded by `prev`. -/
def domTryOne (prev : Option Char) : Str → Option Str
  | d1 :: c :: m1 :: m2 :: rest =>
    if boundaryB prev (some d1) && d1.isDigit && c == ':'
        && m1.isDigit && m2.isDigit then
      (afterMM m2 rest).map (fun extra => d1 :: ':' :: m1 :: m2 :: extra)
    else none
  | _ => none

/-- Scan for the leftmost DOM time match, tracking the preceding character. -/
def domSearchTimeAux (prev : Option Char) : Str → Option Str
  | [] => none
  | c :: rest =>
    match domTryTwo prev (c :: rest) with
    | some tok => some tok
    | none =>
      match domTryOne prev (c :: rest) with
      | some tok => some tok
      | none => domSearchTimeAux (some c) rest

/-- `re.search` for the DOM time pattern; yields `group(0)`. -/
def domSearchTime (s : Str) : Option Str := domSearchTimeAux none s

/-- `int(tm.group(0).split(":")[1][:2])` - minutes of a matched DOM token. -/
def minutesOfToken (tok : Str) : Nat :=
  minutesVal (((tok.dropWhile (fun c => c != ':')).drop 1).take 2)

/-! ### `re.search(r"\$\s*\d+(?:\.\d{2})?", ...)` - the currency pattern. -/

/-- Currency pattern attempt at the current position. -/
def matchCurrencyAt : Str → Option Str
  | c :: rest =>
    if c == '$' then
      let sp := rest.takeWhile isSpaceChar
      let r1 := rest.dropWhile isSpaceChar
      let ds := r1.takeWhile Char.isDigit
      let r2 := r1.dropWhile Char.isDigit
      if ds.isEmpty then none
      else
        match r2 with
        | d :: f1 :: f2 :: _ =>
          if d == '.' && f1.isDigit && f2.isDigit then
            some ('$' :: sp ++ ds ++ ['.', f1, f2])
          else some ('$' :: sp ++ ds)
        | _ => some ('$' :: sp ++ ds)
    else none
  | [] => none

/-- Leftmost currency match (`group(0)`). -/
def searchCurrency : Str → Option Str
  | [] => none
  | c :: rest =>
    match matchCurrencyAt (c :: rest) with
    | some m => some m
    | none => searchCurrency rest

/-- `_parse_currency` (lines 76-78): `m.group(0).replace(" ", "") if m else ""`. -/
def parseCurrency (text : Str) : Str :=
  match searchCurrency text with
  | some m => m.filter (fun c => c != ' ')
  | none => []

/-! ### TicketSlot and the JSON payload scanner -/

/-- The `TicketSlot` dataclass (lines 26-31). -/
structure TicketSlot where
  date : Str
  time : Str
  price : Str
  source : Str
deriving DecidableEq

/-- The time-bearing key alias priority list (line 59). -/
def timeAliases : List Str :=
  ["time".data, "starttime".data, "start_time".data, "slot_time".data]

/-- The price-bearing key alias priority list (line 60). -/
def priceAliases : List Str :=
  ["price".data, "adultprice".data, "adult_price".data,
   "displayprice".data, "formattedprice".data]

/-- Keys of a dict in insertion order (`payload.keys()`). -/
def fieldsKeys : JsonFields → List Str
  | .nil => []
  | .cons k _ rest => k :: fieldsKeys rest

/-- `keys = {k.lower(): k for k in payload.keys()}` followed by `keys[target]`:
the comprehension lets a later key overwrite an earlier one with the same
lowercase form, so the last matching original key is returned. -/
def lookupLower (fields : JsonFields) (target : Str) : Option Str :=
  ((fieldsKeys fields).filter (fun k => decide (lowerStr k = target))).getLast?

/-- `next((keys[k] for k in aliases if k in keys), None)` (lines 59-60). -/
def findKeyFrom (fields : JsonFields) : List Str → Option Str
  | [] => none
  | a :: rest =>
    match lookupLower fields a with
    | some k => some k
    | none => findKeyFrom fields rest

/-- `payload.get(key)` on the ordered field list. -/
def dictGet : JsonFields → Str → Option Json
  | .nil, _ => none
  | .cons k v rest, target => if decide (k = target) then some v else dictGet rest target

/-- Lines 57-70 of `_collect_slots_from_json`: the per-mapping candidate
check.  Returns the slot appended at this level, if any. -/
def emitFromObj (requestedDate : Str) (fields : JsonFields) : Option TicketSlot :=
  match findKeyFrom fields timeAliases, findKeyFrom fields priceAliases with
  | some timeKey, some priceKey =>
    let rawTime := strip (pyStr ((dictGet fields timeKey).getD (Json.str [])))
    let rawPrice := strip (pyStr ((dictGet fields priceKey).getD (Json.str [])))
    (match searchTime rawTime with
     | some p =>
       if minutesVal p.2 % 10 == 0 && !rawPrice.isEmpty then
         some ⟨requestedDate, rawTime, rawPrice, "network-json".data⟩
       else none
     | none => none)
  | _, _ => none

mutual
/-- `_collect_slots_from_json` (lines 48-73), with the `out` accumulator
made explicit as the returned list (appended in source order). -/
def collectSlotsFromJson (requestedDate : Str) : Json → List TicketSlot
  | .arr items => collectJsonList requestedDate items
  | .obj fields =>
    (match emitFromObj requestedDate fields with
     | some s => [s]
     | none => []) ++ collectJsonValues requestedDate fields
  | _ => []
/-- The `for item in payload:` loop over a JSON array (lines 49-52). -/
def collectJsonList (requestedDate : Str) : JsonList → List TicketSlot
  | .nil => []
  | .cons j rest =>
    collectSlotsFromJson requestedDate j ++ collectJsonList requestedDate rest
/-- The `for value in payload.values():` recursion (lines 72-73). -/
def collectJsonValues (requestedDate : Str) : JsonFields → List TicketSlot
  | .nil => []
  | .cons _ v rest =>
    collectSlotsFromJson requestedDate v ++ collectJsonValues requestedDate rest
end

/-! ### The DOM text scanner -/

/-- One swept element: the result of reading its own `inner_text` and, on
demand, its structural parent's `inner_text`.  `Except.error` models a read
that raises (e.g. a stale element or a timeout). -/
structure DomElement where
  innerText : Except Unit Str
  parentText : Except Unit Str

/-- Python `str.replace("  ", " ")`: left-to-right, non-overlapping. -/
def replaceDoubleSpace : Str → Str
  | ' ' :: ' ' :: rest => ' ' :: replaceDoubleSpace rest
  | c :: rest => c :: replaceDoubleSpace rest
  | [] => []

/-- The `for i in range(count):` body of `_collect_slots_from_dom`
(lines 88-111).  Exceptions raised by a text read propagate (there is no
try/except in the source loop), modelled by the `Except` result. -/
def domScanLoop (requestedDate : Str) : List DomElement → Except Unit (List TicketSlot)
  | [] => Except.ok []
  | e :: rest =>
    match e.innerText with
    | Except.error u => Except.error u
    | Except.ok raw =>
      let text := strip raw
      if text.isEmpty || text.length > 200 then domScanLoop requestedDate rest
      else
        match domSearchTime text with
        | none => domScanLoop requestedDate rest
        | some tok =>
          if minutesOfToken tok % 10 != 0 then domScanLoop requestedDate rest
          else
            match
              (if (parseCurrency text).isEmpty then
                 match e.parentText with
                 | Except.error u => Except.error u
                 | Except.ok parentRaw => Except.ok (parseCurrency parentRaw)
               else Except.ok (parseCurrency text)) with
            | Except.error u => Except.error u
            | Except.ok price =>
              if price.isEmpty then domScanLoop requestedDate rest
              else
                match domScanLoop requestedDate rest with
                | Except.error u => Except.error u
                | Except.ok slots =>
                  Except.ok (⟨requestedDate,
                              replaceDoubleSpace (upperStr tok),
                              price, "dom".data⟩ :: slots)

/-- The `(time, price)` dedup identity. -/
def slotKey (s : TicketSlot) : Str × Str := (s.time, s.price)

/-- One dict assignment `uniq[(s.time, s.price)] = s`: the key keeps its
first-insertion position, the value is overwritten. -/
def dedupInsert (acc : List ((Str × Str) × TicketSlot)) (s : TicketSlot) :
    List ((Str × Str) × TicketSlot) :=
  if acc.any (fun p => decide (p.1 = slotKey s)) then
    acc.map (fun p => if p.1 = slotKey s then (p.1, s) else p)
  else acc ++ [(slotKey s, s)]

/-- Build the dedup dict over a slot list and take `list(d.values())`. -/
def dedupByKey (slots : List TicketSlot) : List TicketSlot :=
  (slots.foldl dedupInsert []).map (fun p => p.2)

/-- `_collect_slots_from_dom` (lines 81-117): sweep capped at 4000
elements, per-element scan, then the scanner's own dedup pass. -/
def collectSlotsFromDom (elements : List DomElement) (requestedDate : Str) :
    Except Unit (List TicketSlot) :=
  match domScanLoop requestedDate (elements.take 4000) with
  | Except.error u => Except.error u
  | Except.ok slots => Except.ok (dedupByKey slots)

/-! ### The reconciler (lines 184-191 of `scrape_top_of_rock`) -/

/-- Python string comparison `<` (lexicographic by code point, a proper
prefix is smaller). -/
def strLt : Str → Str → Bool
  | [], [] => false
  | [], _ :: _ => true
  | _ :: _, [] => false
  | a :: as2, b :: bs => if a < b then true else if b < a then false else strLt as2 bs

/-- Python tuple comparison `(s.time, s.price) <= (t.time, t.price)` used
as the ascending sort order. -/
def slotLeB (a b : TicketSlot) : Bool :=
  strLt a.time b.time
    || (decide (a.time = b.time)
          && (strLt a.price b.price || decide (a.price = b.price)))

/-- Stable insertion of one element into an ascending list. -/
def insertSorted (le : α → α → Bool) (x : α) : List α → List α
  | [] => [x]
  | y :: ys => if le x y then x :: y :: ys else y :: insertSorted le x ys

/-- A stable ascending sort; Python's `sorted` is specified to be exactly
this function on a total preorder (stable sorts are unique). -/
def sortByLe (le : α → α → Bool) : List α → List α
  | [] => []
  | x :: xs => insertSorted le x (sortByLe le xs)

/-- Lines 184-191: `all_slots = slots_from_network + dom_slots`, dict
dedup keyed by `(time, price)` (later write wins), then
`sorted(dedup.values(), key=lambda s: (s.time, s.price))`. -/
def reconcileSlots (networkSlots domSlots : List TicketSlot) : List TicketSlot :=
  sortByLe slotLeB (dedupByKey (networkSlots ++ domSlots))

/-! ### Lemmas about `strip` -/

theorem strip_idem (s : Str) : strip (strip s) = strip s := by
  unfold strip
  rcases h : (s.dropWhile isSpaceChar).rdropWhile isSpaceChar with _ | ⟨a, t⟩
  · simp [List.rdropWhile]
  · have hpre : (s.dropWhile isSpaceChar).rdropWhile isSpaceChar <+:
        s.dropWhile isSpaceChar := List.rdropWhile_prefix _ _
    rw [h] at hpre
    obtain ⟨u, hu⟩ := hpre
    have hne : s.dropWhile isSpaceChar ≠ [] := by rw [← hu]; simp
    have ha : ¬ isSpaceChar a = true := by
      have hh := List.head?_dropWhile_not isSpaceChar s
      rw [← hu] at hh
      simp only [List.cons_append, List.head?_cons] at hh
      simp [hh]
    have hd : (a :: t).dropWhile isSpaceChar = a :: t :=
      List.dropWhile_cons_of_neg ha
    rw [hd, ← h, List.rdropWhile_idempotent]

/-! ### Shape of JSON time pattern matches -/

theorem tryTwoColon_shape {s h m : Str} (hs : tryTwoColon s = some (h, m)) :
    ∃ d1 d2 m1 m2 post, s = d1 :: d2 :: ':' :: m1 :: m2 :: post ∧
      h = [d1, d2] ∧ m = [m1, m2] ∧
      d1.isDigit ∧ d2.isDigit ∧ m1.isDigit ∧ m2.isDigit := by
  match s with
  | [] => simp [tryTwoColon] at hs
  | [a] => simp [tryTwoColon] at hs
  | [a, b] => simp [tryTwoColon] at hs
  | [a, b, c] => simp [tryTwoColon] at hs
  | [a, b, c, d] => simp [tryTwoColon] at hs
  | a :: b :: c :: d :: e :: post =>
    simp only [tryTwoColon] at hs
    split at hs
    · rename_i hcond
      simp only [Bool.and_eq_true, beq_iff_eq] at hcond
      obtain ⟨⟨⟨⟨ha, hb⟩, hc⟩, hd2⟩, he⟩ := hcond
      subst hc
      simp only [Option.some.injEq, Prod.mk.injEq] at hs
      exact ⟨a, b, d, e, post, rfl, hs.1.symm, hs.2.symm, ha, hb, hd2, he⟩
    · simp at hs

theorem tryOneColon_shape {s h m : Str} (hs : tryOneColon s = some (h, m)) :
    ∃ d1 m1 m2 post, s = d1 :: ':' :: m1 :: m2 :: post ∧
      h = [d1] ∧ m = [m1, m2] ∧
      d1.isDigit ∧ m1.isDigit ∧ m2.isDigit := by
  match s with
  | [] => simp [tryOneColon] at hs
  | [a] => simp [tryOneColon] at hs
  | [a, b] => simp [tryOneColon] at hs
  | [a, b, c] => simp [tryOneColon] at hs
  | a :: b :: c :: d :: post =>
    simp only [tryOneColon] at hs
    split at hs
    · rename_i hcond
      simp only [Bool.and_eq_true, beq_iff_eq] at hcond
      obtain ⟨⟨⟨ha, hb⟩, hc⟩, hd2⟩ := hcond
      subst hb
      simp only [Option.some.injEq, Prod.mk.injEq] at hs
      exact ⟨a, c, d, post, rfl, hs.1.symm, hs.2.symm, ha, hc, hd2⟩
    · simp at hs

theorem searchTime_shape {s h m : Str} (hs : searchTime s = some (h, m)) :
    ∃ pre m1 m2 post,
      s = pre ++ h ++ ':' :: m1 :: m2 :: post ∧
      m = [m1, m2] ∧ h ≠ [] ∧ h.length ≤ 2 ∧ (∀ c ∈ h, c.isDigit) ∧
      m1.isDigit ∧ m2.isDigit := by
  induction s with
  | nil => simp [searchTime] at hs
  | cons c rest ih =>
    rw [searchTime] at hs
    cases h2 : tryTwoColon (c :: rest) with
    | some r =>
      rw [h2] at hs
      simp only [Option.some.injEq] at hs
      subst hs
      obtain ⟨d1, d2, m1, m2, post, hsplit, hh, hm, ha, hb, hm1, hm2⟩ :=
        tryTwoColon_shape h2
      subst hh; subst hm
      refine ⟨[], m1, m2, post, by simpa using hsplit, rfl, by simp, by simp, ?_, hm1, hm2⟩
      intro x hx
      simp only [List.mem_cons, List.not_mem_nil, or_false] at hx
      rcases hx with rfl | rfl
      · exact ha
      · exact hb
    | none =>
      rw [h2] at hs
      cases h1 : tryOneColon (c :: rest) with
      | some r =>
        rw [h1] at hs
        simp only [Option.some.injEq] at hs
        subst hs
        obtain ⟨d1, m1, m2, post, hsplit, hh, hm, ha, hm1, hm2⟩ :=
          tryOneColon_shape h1
        subst hh; subst hm
        refine ⟨[], m1, m2, post, by simpa using hsplit, rfl, by simp, by simp, ?_, hm1, hm2⟩
        intro x hx
        simp only [List.mem_singleton] at hx
        subst hx
        exact ha
      | none =>
        rw [h1] at hs
        obtain ⟨pre, m1, m2, post, hsplit, hm, hne, hlen, hdig, hm1, hm2⟩ := ih hs
        exact ⟨c :: pre, m1, m2, post, by simp [hsplit], hm, hne, hlen, hdig, hm1, hm2⟩

/-! ### Inversion of the per-mapping emission -/

theorem emitFromObj_eq_some {d : Str} {fields : JsonFields} {s : TicketSlot}
    (h : emitFromObj d fields = some s) :
    ∃ timeKey priceKey,
      findKeyFrom fields timeAliases = some timeKey ∧
      findKeyFrom fields priceAliases = some priceKey ∧
      s.date = d ∧
      s.time = strip (pyStr ((dictGet fields timeKey).getD (Json.str []))) ∧
      s.price = strip (pyStr ((dictGet fields priceKey).getD (Json.str []))) ∧
      s.source = "network-json".data ∧
      (∃ p, searchTime s.time = some p ∧ minutesVal p.2 % 10 = 0) ∧
      s.price ≠ [] := by
  cases hft : findKeyFrom fields timeAliases with
  | none => simp [emitFromObj, hft] at h
  | some tk =>
    cases hfp : findKeyFrom fields priceAliases with
    | none => simp [emitFromObj, hft, hfp] at h
    | some pk =>
      simp only [emitFromObj, hft, hfp] at h
      cases hst : searchTime (strip (pyStr ((dictGet fields tk).getD (Json.str [])))) with
      | none => rw [hst] at h; simp at h
      | some p =>
        rw [hst] at h
        split at h
        · rename_i r hcond
          injection hcond with hpr
          subst hpr
          split at h
          · rename_i hcond2
            simp only [Bool.and_eq_true, beq_iff_eq, Bool.not_eq_true',
              List.isEmpty_eq_false] at hcond2
            obtain ⟨hmin, hpne⟩ := hcond2
            obtain rfl : s = ⟨d, strip (pyStr ((dictGet fields tk).getD (Json.str []))),
                strip (pyStr ((dictGet fields pk).getD (Json.str []))),
                "network-json".data⟩ := (Option.some.injEq _ _).mp h |>.symm
            exact ⟨tk, pk, rfl, rfl, rfl, rfl, rfl, rfl, ⟨p, hst, hmin⟩, hpne⟩
          · simp at h
        · simp at h

/-! ### Provenance: every emitted JSON slot comes from some mapping -/

mutual
theorem mem_collectJson {d : Str} : (j : Json) → ∀ s ∈ collectSlotsFromJson d j,
    ∃ fields, emitFromObj d fields = some s
  | .null => by simp [collectSlotsFromJson]
  | .bool _ => by simp [collectSlotsFromJson]
  | .num _ => by simp [collectSlotsFromJson]
  | .str _ => by simp [collectSlotsFromJson]
  | .arr items => by
    intro s hs
    exact mem_collectJsonList items s (by simpa [collectSlotsFromJson] using hs)
  | .obj fields => by
    intro s hs
    simp only [collectSlotsFromJson] at hs
    rcases List.mem_append.mp hs with h1 | h2
    · cases he : emitFromObj d fields with
      | none => rw [he] at h1; simp at h1
      | some s0 =>
        rw [he] at h1
        simp only [List.mem_singleton] at h1
        exact ⟨fields, h1 ▸ he⟩
    · exact mem_collectJsonValues fields s h2
theorem mem_collectJsonList {d : Str} : (l : JsonList) → ∀ s ∈ collectJsonList d l,
    ∃ fields, emitFromObj d fields = some s
  | .nil => by simp [collectJsonList]
  | .cons j rest => by
    intro s hs
    simp only [collectJsonList] at hs
    rcases List.mem_append.mp hs with h1 | h2
    · exact mem_collectJson j s h1
    · exact mem_collectJsonList rest s h2
theorem mem_collectJsonValues {d : Str} : (f : JsonFields) → ∀ s ∈ collectJsonValues d f,
    ∃ fields, emitFromObj d fields = some s
  | .nil => by simp [collectJsonValues]
  | .cons _ v rest => by
    intro s hs
    simp only [collectJsonValues] at hs
    rcases List.mem_append.mp hs with h1 | h2
    · exact mem_collectJson v s h1
    · exact mem_collectJsonValues rest s h2
end

/-- Claim C3: for every JSON-like input value, every slot emitted by the
JSON scanner has a time string containing an HH:MM-shaped substring whose
minute component is divisible by 10, and a price string that is non-empty
after trimming; its source tag is network-json. -/
theorem claimC3 (d : Str) (j : Json) (s : TicketSlot)
    (hs : s ∈ collectSlotsFromJson d j) :
    (∃ pre hh m1 m2 post,
        s.time = pre ++ hh ++ ':' :: m1 :: m2 :: post ∧
        hh ≠ [] ∧ hh.length ≤ 2 ∧ (∀ c ∈ hh, c.isDigit) ∧
        m1.isDigit ∧ m2.isDigit ∧ twoDigitVal m1 m2 % 10 = 0) ∧
    s.price ≠ [] ∧ strip s.price ≠ [] ∧ s.source = "network-json".data := by
  obtain ⟨fields, hemit⟩ := mem_collectJson j s hs
  obtain ⟨tk, pk, hft, hfp, hdate, htime, hprice, hsrc, ⟨p, hst, hmin⟩, hpne⟩ :=
    emitFromObj_eq_some hemit
  constructor
  · obtain ⟨pre, m1, m2, post, hsplit, hm, hne, hlen, hdig, hm1, hm2⟩ :=
      searchTime_shape hst
    refine ⟨pre, p.1, m1, m2, post, hsplit, hne, hlen, hdig, hm1, hm2, ?_⟩
    rw [hm] at hmin
    simpa [minutesVal] using hmin
  · refine ⟨hpne, ?_, hsrc⟩
    rw [hprice, strip_idem, ← hprice]
    exact hpne

/-- Concrete input for the claim C3 witness. -/
def jC3w : Json :=
  Json.obj (.cons "time".data (.str "10:30".data)
    (.cons "price".data (.str "$5".data) .nil))

/-- Concrete slot for the claim C3 witness. -/
def sC3w : TicketSlot :=
  ⟨"2026-10-12".data, "10:30".data, "$5".data, "network-json".data⟩

/-- Witness for claim C3 at a concrete payload. -/
theorem claimC3_witness :
    sC3w ∈ collectSlotsFromJson "2026-10-12".data jC3w ∧
    ((∃ pre hh m1 m2 post,
        sC3w.time = pre ++ hh ++ ':' :: m1 :: m2 :: post ∧
        hh ≠ [] ∧ hh.length ≤ 2 ∧ (∀ c ∈ hh, c.isDigit) ∧
        m1.isDigit ∧ m2.isDigit ∧ twoDigitVal m1 m2 % 10 = 0) ∧
      sC3w.price ≠ [] ∧ strip sC3w.price ≠ [] ∧
      sC3w.source = "network-json".data) :=
  ⟨by decide, claimC3 "2026-10-12".data jC3w sC3w (by decide)⟩

/-! ### Subvalues: elements of sequences and values of mappings -/

/-- `Child a b`: `a` is an element of the sequence `b` or a value of the
mapping `b`. -/
inductive Child : Json → Json → Prop where
  | arrHead {j : Json} {rest : JsonList} : Child j (.arr (.cons j rest))
  | arrTail {a j : Json} {rest : JsonList} :
      Child a (.arr rest) → Child a (.arr (.cons j rest))
  | objHead {v : Json} {k : Str} {rest : JsonFields} :
      Child v (.obj (.cons k v rest))
  | objTail {a v : Json} {k : Str} {rest : JsonFields} :
      Child a (.obj rest) → Child a (.obj (.cons k v rest))

/-- `Subvalue a b`: `a` is nested somewhere inside `b` (reflexive,
transitive closure of `Child`). -/
inductive Subvalue : Json → Json → Prop where
  | refl (j : Json) : Subvalue j j
  | step {a b c : Json} : Child a b → Subvalue b c → Subvalue a c

theorem Subvalue.trans {a b c : Json} (h1 : Subvalue a b) (h2 : Subvalue b c) :
    Subvalue a c := by
  induction h1 with
  | refl => exact h2
  | step hc _ ih => exact .step hc (ih h2)

/-- A child's collected slots land in the parent's element/value sweep. -/
theorem collect_child_parts {d : Str} {a b : Json} (h : Child a b) :
    ∀ s ∈ collectSlotsFromJson d a,
      (∀ l, b = .arr l → s ∈ collectJsonList d l) ∧
      (∀ f, b = .obj f → s ∈ collectJsonValues d f) := by
  induction h with
  | arrHead =>
    intro s hs
    refine ⟨fun l hl => ?_, fun f hf => by simp at hf⟩
    injection hl with hl2
    subst hl2
    simp only [collectJsonList]
    exact List.mem_append.mpr (Or.inl hs)
  | arrTail _ ih =>
    intro s hs
    refine ⟨fun l hl => ?_, fun f hf => by simp at hf⟩
    injection hl with hl2
    subst hl2
    simp only [collectJsonList]
    exact List.mem_append.mpr (Or.inr ((ih s hs).1 _ rfl))
  | objHead =>
    intro s hs
    refine ⟨fun l hl => by simp at hl, fun f hf => ?_⟩
    injection hf with hf2
    subst hf2
    simp only [collectJsonValues]
    exact List.mem_append.mpr (Or.inl hs)
  | objTail _ ih =>
    intro s hs
    refine ⟨fun l hl => by simp at hl, fun f hf => ?_⟩
    injection hf with hf2
    subst hf2
    simp only [collectJsonValues]
    exact List.mem_append.mpr (Or.inr ((ih s hs).2 _ rfl))

/-- A child's collected slots are among the parent's collected slots. -/
theorem collect_mono_child {d : Str} {a b : Json} (h : Child a b) :
    ∀ s ∈ collectSlotsFromJson d a, s ∈ collectSlotsFromJson d b := by
  intro s hs
  cases b with
  | arr l =>
    simp only [collectSlotsFromJson]
    exact (collect_child_parts h s hs).1 l rfl
  | obj f =>
    simp only [collectSlotsFromJson]
    exact List.mem_append.mpr (Or.inr ((collect_child_parts h s hs).2 f rfl))
  | null => exact absurd h (by intro hc; cases hc)
  | bool b => exact absurd h (by intro hc; cases hc)
  | num n => exact absurd h (by intro hc; cases hc)
  | str t => exact absurd h (by intro hc; cases hc)

/-- Subvalue monotonicity of the JSON sweep. -/
theorem collect_mono {d : Str} {a b : Json} (h : Subvalue a b) :
    ∀ s ∈ collectSlotsFromJson d a, s ∈ collectSlotsFromJson d b := by
  induction h with
  | refl => exact fun s hs => hs
  | step hc _ ih => exact fun s hs => ih s (collect_mono_child hc s hs)

/-- Claim C4: the JSON scanner recurses into every element of every
sequence and every value of every mapping, regardless of emission at the
enclosing level: slots collected from any subvalue are collected from the
whole payload, and a qualifying mapping nested at any depth contributes
its slot. -/
theorem claimC4 (d : Str) (j j2 : Json) (hsub : Subvalue j2 j) :
    (∀ s ∈ collectSlotsFromJson d j2, s ∈ collectSlotsFromJson d j) ∧
    (∀ fields s, j2 = Json.obj fields → emitFromObj d fields = some s →
        s ∈ collectSlotsFromJson d j) := by
  refine ⟨collect_mono hsub, fun fields s hj2 hemit => ?_⟩
  subst hj2
  refine collect_mono hsub s ?_
  simp only [collectSlotsFromJson, hemit]
  exact List.mem_append.mpr (Or.inl (List.mem_singleton.mpr rfl))

/-- A qualifying mapping for the claim C4 witness. -/
def fC4q : JsonFields :=
  .cons "time".data (.str "10:30".data)
    (.cons "price".data (.str "$5".data) .nil)

/-- A payload nesting `fC4q` inside a non-qualifying mapping and an array
for the claim C4 witness. -/
def jC4w : Json :=
  Json.obj (.cons "wrapper".data (Json.arr (.cons (Json.obj fC4q) .nil)) .nil)

/-- The slot contributed by `fC4q` for the claim C4 witness. -/
def sC4w : TicketSlot :=
  ⟨"2026-10-12".data, "10:30".data, "$5".data, "network-json".data⟩

/-- Witness for claim C4: the nested qualifying mapping's slot reaches the
output of the whole payload. -/
theorem claimC4_witness :
    Subvalue (Json.obj fC4q) jC4w ∧
    sC4w ∈ collectSlotsFromJson "2026-10-12".data jC4w :=
  have hsub : Subvalue (Json.obj fC4q) jC4w :=
    .step .arrHead (.step .objHead (.refl jC4w))
  ⟨hsub, (claimC4 "2026-10-12".data jC4w (Json.obj fC4q) hsub).2 fC4q sC4w rfl
    (by decide)⟩

/-- Claim C6: alias lookup is case-insensitive against the fixed priority
lists, the first alias in list order wins, and the documented concrete
mapping yields exactly the documented slot. -/
theorem claimC6 :
    (∀ (fields : JsonFields) (aliases : List Str) (i : Nat) (hi : i < aliases.length),
        (lookupLower fields (aliases.get ⟨i, hi⟩)).isSome = true →
        (∀ jj (hj : jj < i),
          lookupLower fields (aliases.get ⟨jj, Nat.lt_trans hj hi⟩) = none) →
        findKeyFrom fields aliases = lookupLower fields (aliases.get ⟨i, hi⟩)) ∧
    collectSlotsFromJson "2026-10-12".data
        (Json.obj (.cons "StartTime".data (.str "14:20".data)
          (.cons "AdultPrice".data (.str "$55".data) .nil)))
      = [⟨"2026-10-12".data, "14:20".data, "$55".data, "network-json".data⟩] := by
  constructor
  · intro fields aliases
    induction aliases with
    | nil => intro i hi; exact absurd hi (by simp)
    | cons a rest ih =>
      intro i hi hpresent hearlier
      cases i with
      | zero =>
        cases hla : lookupLower fields a with
        | none => rw [show (a :: rest).get ⟨0, hi⟩ = a from rfl, hla] at hpresent; simp at hpresent
        | some k => simp [findKeyFrom, hla]
      | succ i2 =>
        have h0 : lookupLower fields a = none := hearlier 0 (Nat.succ_pos i2)
        simp only [findKeyFrom, h0]
        exact ih i2 (Nat.lt_of_succ_lt_succ hi) hpresent
          (fun jj hj => hearlier (jj + 1) (Nat.succ_lt_succ hj))
  · decide

/-- Fields with two time aliases for the claim C6 witness: `Time` appears
before `StartTime`, so the higher-priority alias `time` wins. -/
def fC6w : JsonFields :=
  .cons "Time".data (.str "9:40".data)
    (.cons "StartTime".data (.str "14:20".data)
      (.cons "AdultPrice".data (.str "$55".data) .nil))

/-- Witness for claim C6's priority statement at a concrete field list. -/
theorem claimC6_witness :
    (lookupLower fC6w (timeAliases.get ⟨0, by decide⟩)).isSome = true ∧
    findKeyFrom fC6w timeAliases = lookupLower fC6w (timeAliases.get ⟨0, by decide⟩) :=
  ⟨by decide, claimC6.1 fC6w timeAliases 0 (by decide) (by decide)
    (fun jj hj => absurd hj (Nat.not_lt_zero jj))⟩

/-- Claim C9: the minute check is only divisibility by 10, with no clock
range check: a matched minute component of 60 or more is accepted by both
scanners whenever it is divisible by 10 and a price is found. -/
theorem claimC9 (d : Str) :
    (∀ t p pr, searchTime (strip t) = some pr →
        60 ≤ minutesVal pr.2 → minutesVal pr.2 % 10 = 0 → strip p ≠ [] →
        collectSlotsFromJson d
            (Json.obj (.cons "time".data (.str t)
              (.cons "price".data (.str p) .nil)))
          = [⟨d, strip t, strip p, "network-json".data⟩]) ∧
    (∀ raw parent tok, domSearchTime (strip raw) = some tok →
        strip raw ≠ [] → (strip raw).length ≤ 200 →
        60 ≤ minutesOfToken tok → minutesOfToken tok % 10 = 0 →
        parseCurrency (strip raw) ≠ [] →
        collectSlotsFromDom [⟨Except.ok raw, Except.ok parent⟩] d
          = Except.ok [⟨d, replaceDoubleSpace (upperStr tok),
                        parseCurrency (strip raw), "dom".data⟩]) := by
  constructor
  · intro t p pr hst hge hmod hpne
    have hemit : emitFromObj d (.cons "time".data (.str t)
        (.cons "price".data (.str p) .nil))
        = some ⟨d, strip t, strip p, "network-json".data⟩ := by
      have hft : findKeyFrom (JsonFields.cons "time".data (.str t)
          (.cons "price".data (.str p) .nil)) timeAliases = some "time".data := rfl
      have hfp : findKeyFrom (JsonFields.cons "time".data (.str t)
          (.cons "price".data (.str p) .nil)) priceAliases = some "price".data := rfl
      have hgt : dictGet (JsonFields.cons "time".data (.str t)
          (.cons "price".data (.str p) .nil)) "time".data = some (.str t) := rfl
      have hgp : dictGet (JsonFields.cons "time".data (.str t)
          (.cons "price".data (.str p) .nil)) "price".data = some (.str p) := rfl
      have hpe : (strip p).isEmpty = false := by
        simpa [List.isEmpty_eq_false] using hpne
      simp only [emitFromObj, hft, hfp, hgt, hgp, Option.getD_some, pyStr, hst,
        hmod, hpe, Bool.not_false, Bool.and_true]
      rfl
    simp only [collectSlotsFromJson, collectJsonValues, hemit, List.append_nil,
      List.nil_append, List.singleton_append, List.cons_append]
  · intro raw parent tok hst hne hlen hge hmod hcne
    have hie : (strip raw).isEmpty = false := by
      simpa [List.isEmpty_eq_false] using hne
    have hlt : decide ((strip raw).length > 200) = false := by
      simp
      omega
    have hmz : (minutesOfToken tok % 10 != 0) = false := by
      simp [hmod]
    have hce : (parseCurrency (strip raw)).isEmpty = false := by
      simpa [List.isEmpty_eq_false] using hcne
    simp only [collectSlotsFromDom, List.take, domScanLoop, hie, hlt, hst, hmz,
      hce, Bool.false_or, Bool.or_false, if_false, Bool.false_eq_true,
      if_neg, reduceIte]
    rfl

/-- The JSON-pattern match groups on `10:70` for the claim C9 witness. -/
def prC9 : Str × Str := (['1', '0'], ['7', '0'])

/-- The DOM token matched in `10:70 AM $5` for the claim C9 witness. -/
def tokC9 : Str := "10:70 AM".data

/-- Witness for claim C9: minute component 70 is accepted by both
scanners. -/
theorem claimC9_witness :
    (searchTime (strip "10:70".data) = some prC9 ∧
      60 ≤ minutesVal prC9.2 ∧ minutesVal prC9.2 % 10 = 0 ∧
      strip "$5".data ≠ [] ∧
      collectSlotsFromJson "2026-10-12".data
          (Json.obj (.cons "time".data (.str "10:70".data)
            (.cons "price".data (.str "$5".data) .nil)))
        = [⟨"2026-10-12".data, strip "10:70".data, strip "$5".data,
            "network-json".data⟩]) ∧
    (domSearchTime (strip "10:70 AM $5".data) = some tokC9 ∧
      60 ≤ minutesOfToken tokC9 ∧ minutesOfToken tokC9 % 10 = 0 ∧
      parseCurrency (strip "10:70 AM $5".data) ≠ [] ∧
      collectSlotsFromDom [⟨Except.ok "10:70 AM $5".data, Except.ok []⟩]
          "2026-10-12".data
        = Except.ok [⟨"2026-10-12".data, replaceDoubleSpace (upperStr tokC9),
                      parseCurrency (strip "10:70 AM $5".data), "dom".data⟩]) :=
  ⟨⟨by decide, by decide, by decide, by decide,
    (claimC9 "2026-10-12".data).1 "10:70".data "$5".data prC9
      (by decide) (by decide) (by decide) (by decide)⟩,
   ⟨by decide, by decide, by decide, by decide,
    (claimC9 "2026-10-12".data).2 "10:70 AM $5".data [] tokC9
      (by decide) (by decide) (by decide) (by decide) (by decide) (by decide)⟩⟩

/-- Claim C2 (code and spec diverge): the DOM sweep loop has no
try/except, so a snippet whose text read raises aborts the whole sweep:
any failing element makes the scanner return the propagated error,
discarding even candidates from later healthy snippets.  Evaluated both
generally and at a concrete failing input. -/
theorem claimC2 :
    (∀ (d parentT : Str) (rest : List DomElement),
        collectSlotsFromDom (⟨Except.error (), Except.ok parentT⟩ :: rest) d
          = Except.error ()) ∧
    collectSlotsFromDom
        [⟨Except.error (), Except.ok []⟩,
         ⟨Except.ok "10:30 AM - $42.00".data, Except.ok []⟩]
        "2026-10-12".data
      = Except.error () ∧
    collectSlotsFromDom
        [⟨Except.ok "10:30 AM - $42.00".data, Except.ok []⟩]
        "2026-10-12".data
      = Except.ok [⟨"2026-10-12".data, "10:30 AM".data, "$42.00".data,
                    "dom".data⟩] :=
  ⟨fun _ _ _ => rfl, rfl, rfl⟩


/-! ### Dedup dictionary lemmas (the `uniq[(s.time, s.price)] = s` pattern) -/

/-- Every dict entry's key is the `(time, price)` of its stored slot. -/
theorem dedupInsert_fst {acc : List ((Str × Str) × TicketSlot)} {s : TicketSlot}
    (hacc : ∀ p ∈ acc, p.1 = slotKey p.2) :
    ∀ p ∈ dedupInsert acc s, p.1 = slotKey p.2 := by
  intro p hp
  unfold dedupInsert at hp
  split at hp
  · obtain ⟨q, hq, hfq⟩ := List.mem_map.mp hp
    split at hfq
    · rename_i hdq
      subst hfq
      simpa using hdq
    · subst hfq
      exact hacc q hq
  · rcases List.mem_append.mp hp with h | h
    · exact hacc p h
    · simp only [List.mem_singleton] at h
      subst h
      rfl

/-- Inserting preserves distinctness of the dict keys. -/
theorem dedupInsert_nodup {acc : List ((Str × Str) × TicketSlot)} {s : TicketSlot}
    (hnd : (acc.map Prod.fst).Nodup) :
    ((dedupInsert acc s).map Prod.fst).Nodup := by
  unfold dedupInsert
  split
  · have hmap : ((acc.map (fun p => if p.1 = slotKey s then (p.1, s) else p)).map
        Prod.fst) = acc.map Prod.fst := by
      rw [List.map_map]
      apply List.map_congr_left
      intro p _
      by_cases hp : p.1 = slotKey s <;> simp [hp]
    rw [hmap]
    exact hnd
  · rename_i hany
    have hnot : slotKey s ∉ acc.map Prod.fst := by
      intro hmem
      obtain ⟨q, hq, hfq⟩ := List.mem_map.mp hmem
      have : acc.any (fun p => decide (p.1 = slotKey s)) = true :=
        List.any_eq_true.mpr ⟨q, hq, decide_eq_true hfq⟩
      simp [this] at hany
    simp only [List.map_append, List.map_cons, List.map_nil]
    refine List.Nodup.append hnd (List.nodup_singleton _) ?_
    intro x hx hy
    simp only [List.mem_singleton] at hy
    subst hy
    exact hnot hx

/-- If no entry carries key `k`, the stored slots have no slot keyed `k`. -/
theorem filter_mapsnd_nil {k : Str × Str} :
    ∀ (m : List ((Str × Str) × TicketSlot)),
      (∀ p ∈ m, p.1 = slotKey p.2) → (∀ p ∈ m, p.1 ≠ k) →
      (m.map (fun p => p.2)).filter (fun x => decide (slotKey x = k)) = [] := by
  intro m hinv hne
  rw [List.filter_eq_nil_iff]
  intro x hx
  obtain ⟨p, hp, rfl⟩ := List.mem_map.mp hx
  rw [← hinv p hp]
  simpa using hne p hp

/-- Overwriting the entry keyed `slotKey s` makes the stored slots filtered
at that key exactly `[s]`. -/
theorem filter_overwrite {s : TicketSlot} :
    ∀ (acc : List ((Str × Str) × TicketSlot)),
      (∀ p ∈ acc, p.1 = slotKey p.2) → (acc.map Prod.fst).Nodup →
      acc.any (fun p => decide (p.1 = slotKey s)) = true →
      ((acc.map (fun p => if p.1 = slotKey s then (p.1, s) else p)).map
          (fun p => p.2)).filter (fun x => decide (slotKey x = slotKey s)) = [s] := by
  intro acc
  induction acc with
  | nil => intro _ _ hany; simp at hany
  | cons q rest ih =>
    intro hinv hnd hany
    have hqinv := hinv q (List.mem_cons_self q rest)
    have hrinv : ∀ p ∈ rest, p.1 = slotKey p.2 :=
      fun p hp => hinv p (List.mem_cons_of_mem q hp)
    simp only [List.map_cons, List.nodup_cons] at hnd
    by_cases hq : q.1 = slotKey s
    · have hrne : ∀ p ∈ rest, p.1 ≠ slotKey s := by
        intro p hp hps
        apply hnd.1
        rw [hq, ← hps]
        exact List.mem_map_of_mem Prod.fst hp
      have hmaprest : rest.map (fun p =>
          if p.1 = slotKey s then (p.1, s) else p) = rest := by
        conv_rhs => rw [← List.map_id rest]
        apply List.map_congr_left
        intro p hp
        simp [hrne p hp]
      have htail := filter_mapsnd_nil rest hrinv hrne
      rw [List.map_cons, if_pos hq, hmaprest, List.map_cons, List.filter_cons]
      simp [htail]
    · have hany2 : rest.any (fun p => decide (p.1 = slotKey s)) = true := by
        rw [List.any_cons, decide_eq_false hq, Bool.false_or] at hany
        exact hany
      have hqk : slotKey q.2 ≠ slotKey s := by rw [← hqinv]; exact hq
      rw [List.map_cons, if_neg hq, List.map_cons, List.filter_cons]
      rw [if_neg (by simp [hqk])]
      exact ih hrinv hnd.2 hany2

/-- Overwriting the entry keyed `slotKey s` leaves filters at other keys
unchanged. -/
theorem filter_overwrite_ne {s : TicketSlot} {k : Str × Str} (hk : k ≠ slotKey s) :
    ∀ (acc : List ((Str × Str) × TicketSlot)),
      (∀ p ∈ acc, p.1 = slotKey p.2) →
      ((acc.map (fun p => if p.1 = slotKey s then (p.1, s) else p)).map
          (fun p => p.2)).filter (fun x => decide (slotKey x = k))
        = (acc.map (fun p => p.2)).filter (fun x => decide (slotKey x = k)) := by
  intro acc
  induction acc with
  | nil => simp
  | cons q rest ih =>
    intro hinv
    have hqinv := hinv q (List.mem_cons_self q rest)
    have hrinv : ∀ p ∈ rest, p.1 = slotKey p.2 :=
      fun p hp => hinv p (List.mem_cons_of_mem q hp)
    by_cases hq : q.1 = slotKey s
    · have hsk : slotKey s ≠ k := fun h => hk h.symm
      have hqk : slotKey q.2 ≠ k := by rw [← hqinv, hq]; exact hsk
      rw [List.map_cons, if_pos hq, List.map_cons, List.filter_cons,
        List.map_cons, List.filter_cons]
      rw [if_neg (by simp [hsk]), if_neg (by simp [hqk])]
      exact ih hrinv
    · rw [List.map_cons, if_neg hq, List.map_cons, List.filter_cons,
        List.map_cons, List.filter_cons, ih hrinv]

/-- One dict assignment, seen through `list(values())` filtered at a key:
the inserted slot's own key now holds exactly `[s]`; other keys are
untouched. -/
theorem dedupInsert_filter {acc : List ((Str × Str) × TicketSlot)} {s : TicketSlot}
    (k : Str × Str)
    (hinv : ∀ p ∈ acc, p.1 = slotKey p.2) (hnd : (acc.map Prod.fst).Nodup) :
    ((dedupInsert acc s).map (fun p => p.2)).filter (fun x => decide (slotKey x = k))
      = if k = slotKey s then [s]
        else (acc.map (fun p => p.2)).filter (fun x => decide (slotKey x = k)) := by
  by_cases hk : k = slotKey s
  · rw [if_pos hk]
    subst hk
    unfold dedupInsert
    split
    · rename_i hany
      exact filter_overwrite acc hinv hnd hany
    · rename_i hany
      have hne : ∀ p ∈ acc, p.1 ≠ slotKey s := by
        intro p hp hps
        exact hany (List.any_eq_true.mpr ⟨p, hp, decide_eq_true hps⟩)
      simp only [List.map_append, List.map_cons, List.map_nil, List.filter_append,
        filter_mapsnd_nil acc hinv hne, List.filter_cons, List.filter_nil]
      simp
  · rw [if_neg hk]
    unfold dedupInsert
    split
    · exact filter_overwrite_ne hk acc hinv
    · have hsk : slotKey s ≠ k := fun h => hk h.symm
      simp only [List.map_append, List.map_cons, List.map_nil, List.filter_append,
        List.filter_cons, List.filter_nil]
      rw [if_neg (by simp [hsk])]
      simp

/-- The dedup dict built over a slot list, filtered at a key: the value is
the last inserted slot with that key (or the accumulator's, if none). -/
theorem dedupFold_filter (k : Str × Str) :
    ∀ (l : List TicketSlot) (acc : List ((Str × Str) × TicketSlot)),
      (∀ p ∈ acc, p.1 = slotKey p.2) → (acc.map Prod.fst).Nodup →
      ((l.foldl dedupInsert acc).map (fun p => p.2)).filter
          (fun x => decide (slotKey x = k))
        = ((l.filter (fun x => decide (slotKey x = k))).getLast?).elim
            ((acc.map (fun p => p.2)).filter (fun x => decide (slotKey x = k)))
            (fun s => [s]) := by
  intro l
  induction l with
  | nil => intro acc hinv hnd; simp
  | cons s rest ih =>
    intro acc hinv hnd
    rw [List.foldl_cons]
    rw [ih (dedupInsert acc s) (dedupInsert_fst hinv) (dedupInsert_nodup hnd)]
    rw [List.filter_cons]
    by_cases hks : slotKey s = k
    · rw [if_pos (by simpa using hks)]
      rcases hrf : rest.filter (fun x => decide (slotKey x = k)) with _ | ⟨y, t⟩
      · simp only [hrf, List.getLast?_singleton, List.getLast?_nil, Option.elim]
        rw [dedupInsert_filter k hinv hnd, if_pos hks.symm]
      · rw [List.getLast?_cons_cons]
        cases hx : (y :: t).getLast? with
        | none => simp [List.getLast?_eq_none_iff] at hx
        | some x => simp [Option.elim]
    · rw [if_neg (by simpa using hks)]
      cases hx : (rest.filter (fun x => decide (slotKey x = k))).getLast? with
      | none =>
        simp only [Option.elim]
        rw [dedupInsert_filter k hinv hnd,
          if_neg (fun h => hks h.symm)]
      | some x => simp [Option.elim]

/-- `dedupByKey` keeps, for each key, exactly the last slot with that key. -/
theorem dedupByKey_filter (k : Str × Str) (l : List TicketSlot) :
    (dedupByKey l).filter (fun x => decide (slotKey x = k))
      = ((l.filter (fun x => decide (slotKey x = k))).getLast?).elim []
          (fun s => [s]) := by
  unfold dedupByKey
  rw [dedupFold_filter k l [] (by simp) (by simp)]
  simp

/-! ### The stable sort is a permutation -/

theorem insertSorted_perm (le : α → α → Bool) (x : α) :
    ∀ l : List α, List.Perm (insertSorted le x l) (x :: l) := by
  intro l
  induction l with
  | nil => exact List.Perm.refl _
  | cons y ys ih =>
    unfold insertSorted
    split
    · exact List.Perm.refl _
    · exact (List.Perm.cons y ih).trans (List.Perm.swap x y ys)

theorem sortByLe_perm (le : α → α → Bool) :
    ∀ l : List α, List.Perm (sortByLe le l) l := by
  intro l
  induction l with
  | nil => exact List.Perm.refl _
  | cons x xs ih =>
    exact (insertSorted_perm le x (sortByLe le xs)).trans (List.Perm.cons x ih)

/-- The reconciled output, filtered at one `(time, price)` key, is exactly
the last merged slot carrying that key (or nothing). -/
theorem reconcile_filter (net dom : List TicketSlot) (k : Str × Str) :
    List.Perm ((reconcileSlots net dom).filter (fun x => decide (slotKey x = k)))
      ((((net ++ dom).filter (fun x => decide (slotKey x = k))).getLast?).elim []
        (fun s => [s])) := by
  unfold reconcileSlots
  exact (List.Perm.filter _ (sortByLe_perm slotLeB _)).trans
    (by rw [dedupByKey_filter k (net ++ dom)])

/-- Any key present among the merged candidates survives into the
reconciled output. -/
theorem reconcile_key_mem {net dom : List TicketSlot} {k : Str × Str}
    (h : ∃ s ∈ net ++ dom, slotKey s = k) :
    ∃ s ∈ reconcileSlots net dom, slotKey s = k := by
  obtain ⟨s0, hs0, hk0⟩ := h
  have hne : (net ++ dom).filter (fun x => decide (slotKey x = k)) ≠ [] :=
    List.ne_nil_of_mem (List.mem_filter.mpr ⟨hs0, by simp [hk0]⟩)
  cases hlast : ((net ++ dom).filter (fun x => decide (slotKey x = k))).getLast? with
  | none => exact absurd (List.getLast?_eq_none_iff.mp hlast) hne
  | some x =>
    have hperm := reconcile_filter net dom k
    rw [hlast] at hperm
    simp only [Option.elim] at hperm
    have hxmem : x ∈ (reconcileSlots net dom).filter (fun y => decide (slotKey y = k)) := by
      rw [List.perm_singleton.mp hperm]
      exact List.mem_singleton.mpr rfl
    have := List.mem_filter.mp hxmem
    exact ⟨x, this.1, by simpa using this.2⟩

/-- Claim C1 (amended): when a network candidate and a DOM candidate carry
an identical `(time, price)` key, the reconciler emits exactly one slot
for that key, but the dict assignment lets the later (DOM) write win, so
its source tag is `dom`, not `network-json`; candidates sharing a time
with different prices are both retained as distinct records. -/
theorem claimC1_amended (net dom : List TicketSlot)
    (hdomSrc : ∀ s ∈ dom, s.source = "dom".data) :
    (∀ t p, (∃ s ∈ net, slotKey s = (t, p)) → (∃ s ∈ dom, slotKey s = (t, p)) →
        ∃ s, (reconcileSlots net dom).filter
              (fun x => decide (slotKey x = (t, p))) = [s] ∧
          s.source = "dom".data) ∧
    (∀ t p1 p2, p1 ≠ p2 →
        (∃ s ∈ net, slotKey s = (t, p1)) → (∃ s ∈ dom, slotKey s = (t, p2)) →
        ∃ s1 ∈ reconcileSlots net dom, ∃ s2 ∈ reconcileSlots net dom,
          slotKey s1 = (t, p1) ∧ slotKey s2 = (t, p2) ∧ s1 ≠ s2) := by
  constructor
  · intro t p hnet hdom
    obtain ⟨sd, hsd, hkd⟩ := hdom
    have hdne : dom.filter (fun x => decide (slotKey x = (t, p))) ≠ [] :=
      List.ne_nil_of_mem (List.mem_filter.mpr ⟨hsd, by simp [hkd]⟩)
    cases hdl : (dom.filter (fun x => decide (slotKey x = (t, p)))).getLast? with
    | none => exact absurd (List.getLast?_eq_none_iff.mp hdl) hdne
    | some x =>
      have hxdom : x ∈ dom := by
        have := List.mem_of_getLast?_eq_some hdl
        exact (List.mem_filter.mp this).1
      have hlast : ((net ++ dom).filter
          (fun y => decide (slotKey y = (t, p)))).getLast? = some x := by
        rw [List.filter_append, List.getLast?_append, hdl]
        rfl
      have hperm := reconcile_filter net dom (t, p)
      rw [hlast] at hperm
      simp only [Option.elim] at hperm
      exact ⟨x, List.perm_singleton.mp hperm, hdomSrc x hxdom⟩
  · intro t p1 p2 hpne hnet hdom
    obtain ⟨s1, h1, hk1⟩ := reconcile_key_mem (k := (t, p1))
      (hnet.imp (fun s hs => ⟨List.mem_append.mpr (Or.inl hs.1), hs.2⟩))
    obtain ⟨s2, h2, hk2⟩ := reconcile_key_mem (k := (t, p2))
      (hdom.imp (fun s hs => ⟨List.mem_append.mpr (Or.inr hs.1), hs.2⟩))
    refine ⟨s1, h1, s2, h2, hk1, hk2, fun hss => ?_⟩
    rw [hss, hk2] at hk1
    have hp := (Prod.mk.injEq t p2 t p1).mp hk1
    exact hpne hp.2.symm

/-- Counterexample to claim C1 as stated: with one network candidate and
one DOM candidate sharing the key `("10:30 AM", "$42.00")`, the
reconciled output holds exactly one slot, but its source tag is `dom`,
not `network-json` (the later dict write wins). -/
theorem claimC1_counterexample :
    reconcileSlots
        [⟨"2026-10-12".data, "10:30 AM".data, "$42.00".data, "network-json".data⟩]
        [⟨"2026-10-12".data, "10:30 AM".data, "$42.00".data, "dom".data⟩]
      = [⟨"2026-10-12".data, "10:30 AM".data, "$42.00".data, "dom".data⟩] ∧
    "dom".data ≠ "network-json".data :=
  ⟨rfl, by decide⟩

/-- Network-side slot for the claim C1 witness. -/
def nC1 : TicketSlot :=
  ⟨"2026-10-12".data, "10:30 AM".data, "$42.00".data, "network-json".data⟩

/-- DOM-side duplicate of `nC1`'s key for the claim C1 witness. -/
def dC1a : TicketSlot :=
  ⟨"2026-10-12".data, "10:30 AM".data, "$42.00".data, "dom".data⟩

/-- DOM-side slot with the same time but another price. -/
def dC1b : TicketSlot :=
  ⟨"2026-10-12".data, "10:30 AM".data, "$55.00".data, "dom".data⟩

/-- Witness for the amended claim C1 at concrete candidate lists. -/
theorem claimC1_witness :
    (∀ s ∈ [dC1a, dC1b], s.source = "dom".data) ∧
    (∃ s, (reconcileSlots [nC1] [dC1a, dC1b]).filter
          (fun x => decide (slotKey x = ("10:30 AM".data, "$42.00".data))) = [s] ∧
      s.source = "dom".data) ∧
    (∃ s1 ∈ reconcileSlots [nC1] [dC1a, dC1b],
     ∃ s2 ∈ reconcileSlots [nC1] [dC1a, dC1b],
      slotKey s1 = ("10:30 AM".data, "$42.00".data) ∧
      slotKey s2 = ("10:30 AM".data, "$55.00".data) ∧ s1 ≠ s2) :=
  have hsrc : ∀ s ∈ [dC1a, dC1b], s.source = "dom".data := by decide
  ⟨hsrc,
   (claimC1_amended [nC1] [dC1a, dC1b] hsrc).1 "10:30 AM".data "$42.00".data
     ⟨nC1, by decide, by decide⟩ ⟨dC1a, by decide, by decide⟩,
   (claimC1_amended [nC1] [dC1a, dC1b] hsrc).2 "10:30 AM".data "$42.00".data
     "$55.00".data (by decide)
     ⟨nC1, by decide, by decide⟩ ⟨dC1b, by decide, by decide⟩⟩

/-! ### The sort order: Python string/tuple comparison -/

theorem strLt_irrefl : ∀ s : Str, strLt s s = false := by
  intro s
  induction s with
  | nil => rfl
  | cons a t ih => simp [strLt, lt_irrefl, ih]

theorem strLt_trans : ∀ (s t u : Str),
    strLt s t = true → strLt t u = true → strLt s u = true := by
  intro s
  induction s with
  | nil =>
    intro t u hst htu
    cases u with
    | nil =>
      cases t with
      | nil => simp [strLt] at hst
      | cons b bs => simp [strLt] at htu
    | cons c cs => rfl
  | cons a as ih =>
    intro t u hst htu
    cases t with
    | nil => simp [strLt] at hst
    | cons b bs =>
      cases u with
      | nil => simp [strLt] at htu
      | cons c cs =>
        simp only [strLt] at hst htu ⊢
        by_cases hab : a < b
        · by_cases hbc : b < c
          · simp [lt_trans hab hbc]
          · by_cases hcb : c < b
            · simp [hbc, hcb] at htu
            · have hbceq : b = c := le_antisymm (not_lt.mp hcb) (not_lt.mp hbc)
              have hac : a < c := hbceq ▸ hab
              simp [hac]
        · by_cases hba : b < a
          · simp [hab, hba] at hst
          · have habeq : a = b := le_antisymm (not_lt.mp hba) (not_lt.mp hab)
            subst habeq
            by_cases hac : a < c
            · simp [hac]
            · by_cases hca : c < a
              · simp [hac, hca] at htu
              · have haceq : a = c := le_antisymm (not_lt.mp hca) (not_lt.mp hac)
                subst haceq
                rw [if_neg (lt_irrefl a), if_neg (lt_irrefl a)] at hst htu ⊢
                exact ih bs cs hst htu

theorem strLt_total : ∀ s t : Str, strLt s t = true ∨ strLt t s = true ∨ s = t := by
  intro s
  induction s with
  | nil =>
    intro t
    cases t with
    | nil => right; right; rfl
    | cons b bs => left; rfl
  | cons a as ih =>
    intro t
    cases t with
    | nil => right; left; rfl
    | cons b bs =>
      by_cases hab : a < b
      · left; simp [strLt, hab]
      · by_cases hba : b < a
        · right; left; simp [strLt, hba]
        · have heq : a = b := le_antisymm (not_lt.mp hba) (not_lt.mp hab)
          subst heq
          rcases ih bs with h | h | h
          · left; simp [strLt, lt_irrefl, h]
          · right; left; simp [strLt, lt_irrefl, h]
          · right; right; rw [h]

theorem slotLeB_iff {a b : TicketSlot} : slotLeB a b = true ↔
    (strLt a.time b.time = true ∨
      (a.time = b.time ∧ (strLt a.price b.price = true ∨ a.price = b.price))) := by
  simp [slotLeB, Bool.or_eq_true, Bool.and_eq_true, decide_eq_true_eq]

theorem slotLeB_total : ∀ a b : TicketSlot, slotLeB a b = true ∨ slotLeB b a = true := by
  intro a b
  rcases strLt_total a.time b.time with h | h | h
  · left; exact slotLeB_iff.mpr (Or.inl h)
  · right; exact slotLeB_iff.mpr (Or.inl h)
  · rcases strLt_total a.price b.price with hp | hp | hp
    · left; exact slotLeB_iff.mpr (Or.inr ⟨h, Or.inl hp⟩)
    · right; exact slotLeB_iff.mpr (Or.inr ⟨h.symm, Or.inl hp⟩)
    · left; exact slotLeB_iff.mpr (Or.inr ⟨h, Or.inr hp⟩)

theorem slotLeB_trans : ∀ a b c : TicketSlot,
    slotLeB a b = true → slotLeB b c = true → slotLeB a c = true := by
  intro a b c hab hbc
  rcases slotLeB_iff.mp hab with h1 | ⟨he1, hp1⟩
  · rcases slotLeB_iff.mp hbc with h2 | ⟨he2, _⟩
    · exact slotLeB_iff.mpr (Or.inl (strLt_trans _ _ _ h1 h2))
    · exact slotLeB_iff.mpr (Or.inl (he2 ▸ h1))
  · rcases slotLeB_iff.mp hbc with h2 | ⟨he2, hp2⟩
    · exact slotLeB_iff.mpr (Or.inl (he1 ▸ h2))
    · refine slotLeB_iff.mpr (Or.inr ⟨he1.trans he2, ?_⟩)
      rcases hp1 with hp1 | hp1
      · rcases hp2 with hp2 | hp2
        · exact Or.inl (strLt_trans _ _ _ hp1 hp2)
        · exact Or.inl (hp2 ▸ hp1)
      · rcases hp2 with hp2 | hp2
        · exact Or.inl (hp1 ▸ hp2)
        · exact Or.inr (hp1.trans hp2)

/-! ### The stable sort produces an ascending sequence -/

theorem insertSorted_pairwise (le : α → α → Bool)
    (htrans : ∀ a b c, le a b = true → le b c = true → le a c = true)
    (htotal : ∀ a b, le a b = true ∨ le b a = true)
    (x : α) : ∀ l : List α, l.Pairwise (fun a b => le a b = true) →
      (insertSorted le x l).Pairwise (fun a b => le a b = true) := by
  intro l
  induction l with
  | nil => intro _; simp [insertSorted]
  | cons y ys ih =>
    intro hp
    rw [List.pairwise_cons] at hp
    obtain ⟨hy, hys⟩ := hp
    unfold insertSorted
    split
    · rename_i hxy
      rw [List.pairwise_cons]
      refine ⟨?_, List.pairwise_cons.mpr ⟨hy, hys⟩⟩
      intro z hz
      rcases List.mem_cons.mp hz with rfl | hz2
      · exact hxy
      · exact htrans x y z hxy (hy z hz2)
    · rename_i hxy
      have hyx : le y x = true := by
        rcases htotal x y with h | h
        · exact absurd h hxy
        · exact h
      rw [List.pairwise_cons]
      constructor
      · intro z hz
        have hz3 := (insertSorted_perm le x ys).mem_iff.mp hz
        rcases List.mem_cons.mp hz3 with rfl | hz2
        · exact hyx
        · exact hy z hz2
      · exact ih hys

theorem sortByLe_pairwise (le : α → α → Bool)
    (htrans : ∀ a b c, le a b = true → le b c = true → le a c = true)
    (htotal : ∀ a b, le a b = true ∨ le b a = true) :
    ∀ l : List α, (sortByLe le l).Pairwise (fun a b => le a b = true) := by
  intro l
  induction l with
  | nil => simp [sortByLe]
  | cons x xs ih => exact insertSorted_pairwise le htrans htotal x _ ih

/-- Claim C7 (amended): the reconciled output is sorted by lexicographic
string comparison of `(time, price)` - a deterministic but
non-chronological order; however `"1:00 PM"` in fact sorts after
`"10:30 AM"` (`':'` exceeds `'0'`), and non-chronology shows in
`"10:30 AM"` sorting before the chronologically earlier `"9:00 AM"`. -/
theorem claimC7_amended :
    (∀ net dom : List TicketSlot,
        (reconcileSlots net dom).Pairwise (fun a b => slotLeB a b = true)) ∧
    reconcileSlots
        [⟨"2026-10-12".data, "1:00 PM".data, "$7".data, "network-json".data⟩]
        [⟨"2026-10-12".data, "10:30 AM".data, "$7".data, "dom".data⟩]
      = [⟨"2026-10-12".data, "10:30 AM".data, "$7".data, "dom".data⟩,
         ⟨"2026-10-12".data, "1:00 PM".data, "$7".data, "network-json".data⟩] ∧
    strLt "10:30 AM".data "9:00 AM".data = true :=
  ⟨fun _ _ => sortByLe_pairwise slotLeB slotLeB_trans slotLeB_total _,
   rfl, by decide⟩

/-- Counterexample to claim C7's cited example: `"1:00 PM"` does not sort
before `"10:30 AM"` under string comparison; the reconciled output places
`"10:30 AM"` first. -/
theorem claimC7_counterexample :
    strLt "1:00 PM".data "10:30 AM".data = false ∧
    reconcileSlots
        [⟨"2026-10-12".data, "1:00 PM".data, "$5".data, "network-json".data⟩]
        [⟨"2026-10-12".data, "10:30 AM".data, "$5".data, "dom".data⟩]
      = [⟨"2026-10-12".data, "10:30 AM".data, "$5".data, "dom".data⟩,
         ⟨"2026-10-12".data, "1:00 PM".data, "$5".data, "network-json".data⟩] :=
  ⟨by decide, rfl⟩

/-! ### Substring occurrence (to state "appears in the source text") -/

/-- `pat` is a prefix of `s`. -/
def startsWithStr : Str → Str → Bool
  | [], _ => true
  | _ :: _, [] => false
  | p :: ps, c :: cs => p == c && startsWithStr ps cs

/-- `pat` occurs contiguously somewhere in `s`. -/
def occursIn (pat : Str) : Str → Bool
  | [] => startsWithStr pat []
  | c :: rest => startsWithStr pat (c :: rest) || occursIn pat rest

theorem startsWithStr_iff : ∀ (pat s : Str),
    startsWithStr pat s = true ↔ ∃ post, s = pat ++ post := by
  intro pat
  induction pat with
  | nil =>
    intro s
    simp [startsWithStr]
  | cons p ps ih =>
    intro s
    cases s with
    | nil => simp [startsWithStr]
    | cons c cs =>
      simp only [startsWithStr, Bool.and_eq_true, beq_iff_eq, List.cons_append]
      constructor
      · rintro ⟨rfl, h2⟩
        obtain ⟨post, hpost⟩ := (ih cs).mp h2
        exact ⟨post, by rw [hpost]⟩
      · rintro ⟨post, hpost⟩
        injection hpost with h1 h2
        exact ⟨h1.symm, (ih cs).mpr ⟨post, h2⟩⟩

theorem occursIn_iff : ∀ (pat s : Str),
    occursIn pat s = true ↔ ∃ pre post, s = pre ++ pat ++ post := by
  intro pat s
  induction s with
  | nil =>
    simp only [occursIn, startsWithStr_iff]
    constructor
    · rintro ⟨post, hpost⟩
      exact ⟨[], post, by simpa using hpost⟩
    · rintro ⟨pre, post, h⟩
      rcases List.append_eq_nil.mp (List.append_eq_nil.mp h.symm).1 with ⟨h1, h2⟩
      exact ⟨[], by simp [h2]⟩
  | cons c cs ih =>
    simp only [occursIn, Bool.or_eq_true, startsWithStr_iff, ih]
    constructor
    · rintro (⟨post, hpost⟩ | ⟨pre, post, h⟩)
      · exact ⟨[], post, by simpa using hpost⟩
      · exact ⟨c :: pre, post, by simp [h]⟩
    · rintro ⟨pre, post, h⟩
      cases pre with
      | nil => exact Or.inl ⟨post, by simpa using h⟩
      | cons d ds =>
        simp only [List.cons_append, List.append_assoc] at h
        injection h with h1 h2
        exact Or.inr ⟨ds, post, by simpa [List.append_assoc] using h2⟩

/-! ### Shape of currency matches -/

theorem matchCurrencyAt_shape {s m : Str} (h : matchCurrencyAt s = some m) :
    ∃ post, s = m ++ post := by
  cases s with
  | nil => simp [matchCurrencyAt] at h
  | cons c rest =>
    simp only [matchCurrencyAt] at h
    split at h
    · rename_i hdol
      have hc : c = '$' := by simpa using hdol
      subst hc
      have hsplit1 : rest.takeWhile isSpaceChar ++ rest.dropWhile isSpaceChar = rest :=
        List.takeWhile_append_dropWhile _ _
      have hsplit2 : (rest.dropWhile isSpaceChar).takeWhile Char.isDigit ++
          (rest.dropWhile isSpaceChar).dropWhile Char.isDigit
            = rest.dropWhile isSpaceChar :=
        List.takeWhile_append_dropWhile _ _
      have e1 : rest.takeWhile isSpaceChar ++
          ((rest.dropWhile isSpaceChar).takeWhile Char.isDigit ++
            (rest.dropWhile isSpaceChar).dropWhile Char.isDigit) = rest := by
        rw [hsplit2]
        exact hsplit1
      split at h
      · simp at h
      · split at h
        · rename_i d f1 f2 tail heq
          split at h
          · rename_i hfrac
            simp only [Bool.and_eq_true, beq_iff_eq] at hfrac
            obtain ⟨⟨hd, _⟩, _⟩ := hfrac
            subst hd
            injection h with hm
            subst hm
            refine ⟨tail, ?_⟩
            have e2 : rest.takeWhile isSpaceChar ++
                ((rest.dropWhile isSpaceChar).takeWhile Char.isDigit ++
                  ('.' :: f1 :: f2 :: tail)) = rest := by
              rw [← heq]
              exact e1
            conv_lhs => rw [← e2]
            simp [List.append_assoc]
          · injection h with hm
            subst hm
            refine ⟨(rest.dropWhile isSpaceChar).dropWhile Char.isDigit, ?_⟩
            conv_lhs => rw [← e1]
            simp [List.append_assoc]
        · injection h with hm
          subst hm
          refine ⟨(rest.dropWhile isSpaceChar).dropWhile Char.isDigit, ?_⟩
          conv_lhs => rw [← e1]
          simp [List.append_assoc]
    · simp at h

theorem searchCurrency_shape {t m : Str} (h : searchCurrency t = some m) :
    ∃ pre post, t = pre ++ m ++ post := by
  induction t with
  | nil => simp [searchCurrency] at h
  | cons c rest ih =>
    rw [searchCurrency] at h
    cases hm : matchCurrencyAt (c :: rest) with
    | some m2 =>
      rw [hm] at h
      injection h with hm2
      subst hm2
      obtain ⟨post, hpost⟩ := matchCurrencyAt_shape hm
      exact ⟨[], post, by simpa using hpost⟩
    | none =>
      rw [hm] at h
      obtain ⟨pre, post, hsplit⟩ := ih h
      exact ⟨c :: pre, post, by simp [hsplit]⟩

/-! ### Provenance of DOM slots -/

/-- What every slot produced by the DOM sweep looks like: its time is the
uppercased matched token (doubled spaces collapsed) of some scanned text,
and its price is the space-stripped currency match of some consulted text
(the snippet itself or its parent). -/
def DomSlotShape (d : Str) (s : TicketSlot) : Prop :=
  ∃ text tok ptext,
    domSearchTime text = some tok ∧
    s.date = d ∧
    s.time = replaceDoubleSpace (upperStr tok) ∧
    s.price = parseCurrency ptext ∧ s.price ≠ [] ∧
    s.source = "dom".data

theorem domScanLoop_shape {d : Str} :
    ∀ (es : List DomElement) (slots : List TicketSlot),
      domScanLoop d es = Except.ok slots → ∀ s ∈ slots, DomSlotShape d s := by
  intro es
  induction es with
  | nil =>
    intro slots h s hs
    injection h with h2
    subst h2
    simp at hs
  | cons e rest ih =>
    intro slots h s hs
    rw [domScanLoop] at h
    cases hit : e.innerText with
    | error u =>
      rw [hit] at h
      simp only [] at h
      exact absurd h (by simp)
    | ok raw =>
      rw [hit] at h
      simp only [] at h
      by_cases hc1 : ((strip raw).isEmpty || decide ((strip raw).length > 200)) = true
      · rw [if_pos hc1] at h
        exact ih slots h s hs
      · rw [if_neg hc1] at h
        cases hst : domSearchTime (strip raw) with
        | none =>
          rw [hst] at h
          simp only [] at h
          exact ih slots h s hs
        | some tok =>
          rw [hst] at h
          simp only [] at h
          by_cases hmin : (minutesOfToken tok % 10 != 0) = true
          · rw [if_pos hmin] at h
            exact ih slots h s hs
          · rw [if_neg hmin] at h
            by_cases hpe : (parseCurrency (strip raw)).isEmpty = true
            · rw [if_pos hpe] at h
              cases hpt : e.parentText with
              | error u =>
                rw [hpt] at h
                simp only [] at h
                exact absurd h (by simp)
              | ok parentRaw =>
                rw [hpt] at h
                simp only [] at h
                by_cases hpe2 : (parseCurrency parentRaw).isEmpty = true
                · rw [if_pos hpe2] at h
                  exact ih slots h s hs
                · rw [if_neg hpe2] at h
                  cases hrec : domScanLoop d rest with
                  | error u =>
                    rw [hrec] at h
                    simp only [] at h
                    exact absurd h (by simp)
                  | ok slots2 =>
                    rw [hrec] at h
                    simp only [] at h
                    injection h with h2
                    subst h2
                    rcases List.mem_cons.mp hs with rfl | hs2
                    · exact ⟨strip raw, tok, parentRaw, hst, rfl, rfl, rfl,
                        by simpa [List.isEmpty_eq_false] using hpe2, rfl⟩
                    · exact ih slots2 hrec s hs2
            · rw [if_neg hpe] at h
              simp only [] at h
              by_cases hpe2 : (parseCurrency (strip raw)).isEmpty = true
              · rw [if_pos hpe2] at h
                exact ih slots h s hs
              · rw [if_neg hpe2] at h
                cases hrec : domScanLoop d rest with
                | error u =>
                  rw [hrec] at h
                  simp only [] at h
                  exact absurd h (by simp)
                | ok slots2 =>
                  rw [hrec] at h
                  simp only [] at h
                  injection h with h2
                  subst h2
                  rcases List.mem_cons.mp hs with rfl | hs2
                  · exact ⟨strip raw, tok, strip raw, hst, rfl, rfl, rfl,
                      by simpa [List.isEmpty_eq_false] using hpe2, rfl⟩
                  · exact ih slots2 hrec s hs2

/-- A per-slot property of the inputs survives one dict assignment. -/
theorem dedupInsert_pred {P : TicketSlot → Prop}
    {acc : List ((Str × Str) × TicketSlot)} {s : TicketSlot}
    (hacc : ∀ p ∈ acc, P p.2) (hP : P s) :
    ∀ p ∈ dedupInsert acc s, P p.2 := by
  intro p hp
  unfold dedupInsert at hp
  split at hp
  · obtain ⟨q, hq, hfq⟩ := List.mem_map.mp hp
    split at hfq
    · subst hfq; exact hP
    · subst hfq; exact hacc q hq
  · rcases List.mem_append.mp hp with h | h
    · exact hacc p h
    · simp only [List.mem_singleton] at h
      subst h
      exact hP

/-- A per-slot property of the inputs survives the whole dedup pass. -/
theorem dedupByKey_pred {P : TicketSlot → Prop} :
    ∀ (l : List TicketSlot), (∀ s ∈ l, P s) → ∀ s ∈ dedupByKey l, P s := by
  have haux : ∀ (l : List TicketSlot) (acc : List ((Str × Str) × TicketSlot)),
      (∀ p ∈ acc, P p.2) → (∀ s ∈ l, P s) →
      ∀ p ∈ l.foldl dedupInsert acc, P p.2 := by
    intro l
    induction l with
    | nil => intro acc hacc _ p hp; exact hacc p hp
    | cons x xs ih =>
      intro acc hacc hl p hp
      rw [List.foldl_cons] at hp
      exact ih (dedupInsert acc x)
        (dedupInsert_pred hacc (hl x (List.mem_cons_self x xs)))
        (fun s hs => hl s (List.mem_cons_of_mem x hs)) p hp
  intro l hl s hs
  unfold dedupByKey at hs
  obtain ⟨p, hp, rfl⟩ := List.mem_map.mp hs
  exact haux l [] (by simp) hl p hp

/-- Every slot returned by the DOM scanner has the `DomSlotShape`. -/
theorem collectSlotsFromDom_shape {d : Str} {elements : List DomElement}
    {slots : List TicketSlot} (h : collectSlotsFromDom elements d = Except.ok slots) :
    ∀ s ∈ slots, DomSlotShape d s := by
  unfold collectSlotsFromDom at h
  cases hloop : domScanLoop d (elements.take 4000) with
  | error u => rw [hloop] at h; simp at h
  | ok slots0 =>
    rw [hloop] at h
    injection h with h2
    subst h2
    exact dedupByKey_pred slots0 (domScanLoop_shape _ slots0 hloop)

/-- Claim C8 (amended): a DOM price is the currency-pattern match of a
consulted text (a genuine substring of it) with its spaces removed - so
not necessarily a substring as it appeared; a JSON price is the entire
trimmed rendering of the price value, with no currency parsing at all.
No numeric conversion happens in either path (prices stay strings). -/
theorem claimC8_amended :
    (∀ text m, searchCurrency text = some m →
        (∃ pre post, text = pre ++ m ++ post) ∧
        parseCurrency text = m.filter (fun c => c != ' ')) ∧
    (∀ d j s, s ∈ collectSlotsFromJson d j →
        ∃ fields pk, findKeyFrom fields priceAliases = some pk ∧
          s.price = strip (pyStr ((dictGet fields pk).getD (Json.str [])))) ∧
    (∀ d elements slots, collectSlotsFromDom elements d = Except.ok slots →
        ∀ s ∈ slots, ∃ ptext, s.price = parseCurrency ptext ∧ s.price ≠ []) := by
  refine ⟨?_, ?_, ?_⟩
  · intro text m hm
    refine ⟨searchCurrency_shape hm, ?_⟩
    simp [parseCurrency, hm]
  · intro d j s hs
    obtain ⟨fields, hemit⟩ := mem_collectJson j s hs
    obtain ⟨tk, pk, hft, hfp, _, _, hprice, _, _, _⟩ := emitFromObj_eq_some hemit
    exact ⟨fields, pk, hfp, hprice⟩
  · intro d elements slots h s hs
    obtain ⟨text, tok, ptext, _, _, _, hp, hpne, _⟩ := collectSlotsFromDom_shape h s hs
    exact ⟨ptext, hp, hpne⟩

/-- Counterexample to claim C8 as stated: the snippet `10:30 AM $ 5`
yields the stored price `$5`, which does not occur in the source text
(the space was removed); and a JSON price value need not be
currency-formatted at all. -/
theorem claimC8_counterexample :
    collectSlotsFromDom [⟨Except.ok "10:30 AM $ 5".data, Except.ok []⟩]
        "2026-10-12".data
      = Except.ok [⟨"2026-10-12".data, "10:30 AM".data, "$5".data, "dom".data⟩] ∧
    (¬ ∃ pre post, "10:30 AM $ 5".data = pre ++ "$5".data ++ post) ∧
    collectSlotsFromJson "2026-10-12".data
        (Json.obj (.cons "time".data (.str "10:30".data)
          (.cons "price".data (.str "five dollars".data) .nil)))
      = [⟨"2026-10-12".data, "10:30".data, "five dollars".data,
          "network-json".data⟩] ∧
    "five dollars".data.all (fun c => c != '$') = true :=
  ⟨rfl,
   fun hex => absurd ((occursIn_iff "$5".data "10:30 AM $ 5".data).mpr hex)
     (by decide),
   rfl, by decide⟩

/-- Witness for the amended claim C8 at a concrete snippet. -/
theorem claimC8_witness :
    searchCurrency "10:30 AM $ 5".data = some "$ 5".data ∧
    ((∃ pre post, "10:30 AM $ 5".data = pre ++ "$ 5".data ++ post) ∧
      parseCurrency "10:30 AM $ 5".data
        = "$ 5".data.filter (fun c => c != ' ')) :=
  ⟨by decide, claimC8_amended.1 "10:30 AM $ 5".data "$ 5".data (by decide)⟩

/-- Claim C10: a JSON slot stores the entire trimmed string value of the
time key (surrounding text included), while a DOM slot stores only the
matched token, uppercased (doubled spaces collapsed); the same underlying
time can hence surface differently depending on provenance. -/
theorem claimC10 :
    (∀ d j s, s ∈ collectSlotsFromJson d j →
        ∃ fields tk, findKeyFrom fields timeAliases = some tk ∧
          s.time = strip (pyStr ((dictGet fields tk).getD (Json.str [])))) ∧
    (∀ d elements slots, collectSlotsFromDom elements d = Except.ok slots →
        ∀ s ∈ slots, ∃ text tok, domSearchTime text = some tok ∧
          s.time = replaceDoubleSpace (upperStr tok)) ∧
    collectSlotsFromJson "2026-10-12".data
        (Json.obj (.cons "time".data (.str "Tour at 10:30 AM sharp".data)
          (.cons "price".data (.str "$5".data) .nil)))
      = [⟨"2026-10-12".data, "Tour at 10:30 AM sharp".data, "$5".data,
          "network-json".data⟩] ∧
    collectSlotsFromDom
        [⟨Except.ok "Tour at 10:30 am sharp $5".data, Except.ok []⟩]
        "2026-10-12".data
      = Except.ok [⟨"2026-10-12".data, "10:30 AM".data, "$5".data, "dom".data⟩] ∧
    "Tour at 10:30 AM sharp".data ≠ "10:30 AM".data := by
  refine ⟨?_, ?_, rfl, rfl, by decide⟩
  · intro d j s hs
    obtain ⟨fields, hemit⟩ := mem_collectJson j s hs
    obtain ⟨tk, pk, hft, hfp, _, htime, _, _, _, _⟩ := emitFromObj_eq_some hemit
    exact ⟨fields, tk, hft, htime⟩
  · intro d elements slots h s hs
    obtain ⟨text, tok, ptext, htok, _, htime, _, _, _⟩ :=
      collectSlotsFromDom_shape h s hs
    exact ⟨text, tok, htok, htime⟩

/-- Payload for the claim C10 witness. -/
def jC10 : Json :=
  Json.obj (.cons "time".data (.str "Tour at 10:30 AM sharp".data)
    (.cons "price".data (.str "$5".data) .nil))

/-- The slot emitted from `jC10`. -/
def sC10 : TicketSlot :=
  ⟨"2026-10-12".data, "Tour at 10:30 AM sharp".data, "$5".data,
   "network-json".data⟩

/-- Witness for claim C10's JSON half at a concrete payload. -/
theorem claimC10_witness :
    sC10 ∈ collectSlotsFromJson "2026-10-12".data jC10 ∧
    (∃ fields tk, findKeyFrom fields timeAliases = some tk ∧
      sC10.time = strip (pyStr ((dictGet fields tk).getD (Json.str [])))) :=
  ⟨by decide, claimC10.1 "2026-10-12".data jC10 sC10 (by decide)⟩

/-! ### Permutation of the sequences inside a JSON value (claim C5) -/

/-- `JPerm a b`: `b` is obtained from `a` by permuting the elements of
sequences (at any depth); mappings keep their keys and order.  The
presentation mirrors `List.Perm` (nil, pointwise cons, swap,
transitivity) together with pointwise congruence through mapping
values. -/
inductive JPerm : Json → Json → Prop where
  | null : JPerm .null .null
  | bool (b : Bool) : JPerm (.bool b) (.bool b)
  | num (n : Int) : JPerm (.num n) (.num n)
  | str (s : Str) : JPerm (.str s) (.str s)
  | arrNil : JPerm (.arr .nil) (.arr .nil)
  | arrCons {x y : Json} {xs ys : JsonList} :
      JPerm x y → JPerm (.arr xs) (.arr ys) →
      JPerm (.arr (.cons x xs)) (.arr (.cons y ys))
  | arrSwap (x y : Json) (l : JsonList) :
      JPerm (.arr (.cons x (.cons y l))) (.arr (.cons y (.cons x l)))
  | objNil : JPerm (.obj .nil) (.obj .nil)
  | objCons (k : Str) {v w : Json} {fs gs : JsonFields} :
      JPerm v w → JPerm (.obj fs) (.obj gs) →
      JPerm (.obj (.cons k v fs)) (.obj (.cons k w gs))
  | trans {a b c : Json} : JPerm a b → JPerm b c → JPerm a c

mutual
theorem jperm_refl : (j : Json) → JPerm j j
  | .null => .null
  | .bool b => .bool b
  | .num n => .num n
  | .str s => .str s
  | .arr items => jpermList_refl items
  | .obj fields => jpermFields_refl fields
theorem jpermList_refl : (l : JsonList) → JPerm (.arr l) (.arr l)
  | .nil => .arrNil
  | .cons j rest => .arrCons (jperm_refl j) (jpermList_refl rest)
theorem jpermFields_refl : (f : JsonFields) → JPerm (.obj f) (.obj f)
  | .nil => .objNil
  | .cons k v rest => .objCons k (jperm_refl v) (jpermFields_refl rest)
end

/-- Whether a JSON value is a mapping. -/
def Json.isObj : Json → Bool
  | .obj _ => true
  | _ => false

theorem jperm_isObj {a b : Json} (h : JPerm a b) : a.isObj = b.isObj := by
  induction h with
  | trans _ _ ih1 ih2 => exact ih1.trans ih2
  | _ => rfl

theorem jperm_scalar_eq {a b : Json} (h : JPerm a b)
    (hs : a.isScalar = true) : b = a := by
  induction h with
  | null => rfl
  | bool b => rfl
  | num n => rfl
  | str s => rfl
  | arrNil => simp [Json.isScalar] at hs
  | arrCons _ _ _ _ => simp [Json.isScalar] at hs
  | arrSwap x y l => simp [Json.isScalar] at hs
  | objNil => simp [Json.isScalar] at hs
  | objCons k _ _ _ _ => simp [Json.isScalar] at hs
  | trans h1 h2 ih1 ih2 =>
    have hb := ih1 hs
    subst hb
    exact ih2 hs

/-- Pointwise correspondence of mapping fields: identical keys in
identical order, values related by `JPerm`. -/
inductive FieldsCorr : JsonFields → JsonFields → Prop where
  | nil : FieldsCorr .nil .nil
  | cons (k : Str) {v w : Json} {fs gs : JsonFields} :
      JPerm v w → FieldsCorr fs gs → FieldsCorr (.cons k v fs) (.cons k w gs)

theorem fieldsCorr_trans {f g h : JsonFields}
    (h1 : FieldsCorr f g) (h2 : FieldsCorr g h) : FieldsCorr f h := by
  induction h1 generalizing h with
  | nil => cases h2; exact .nil
  | cons k hv _ ih =>
    cases h2 with
    | cons _ hw hcorr => exact .cons k (hv.trans hw) (ih hcorr)

theorem jperm_fields {a b : Json} (h : JPerm a b) :
    ∀ fs gs, a = .obj fs → b = .obj gs → FieldsCorr fs gs := by
  induction h with
  | null => intro fs gs h1 h2; simp at h1
  | bool b => intro fs gs h1 h2; simp at h1
  | num n => intro fs gs h1 h2; simp at h1
  | str s => intro fs gs h1 h2; simp at h1
  | arrNil => intro fs gs h1 h2; simp at h1
  | arrCons _ _ _ _ => intro fs gs h1 h2; simp at h1
  | arrSwap x y l => intro fs gs h1 h2; simp at h1
  | objNil =>
    intro fs gs h1 h2
    injection h1 with h1b
    injection h2 with h2b
    subst h1b; subst h2b
    exact .nil
  | objCons k hv hf ihv ihf =>
    intro fs gs h1 h2
    injection h1 with h1b
    injection h2 with h2b
    subst h1b; subst h2b
    exact .cons k hv (ihf _ _ rfl rfl)
  | trans h1 h2 ih1 ih2 =>
    intro fs gs ha hc
    subst ha; subst hc
    have hobj := jperm_isObj h1
    simp only [Json.isObj] at hobj
    cases hb : ‹Json› with
    | obj gs2 => exact fieldsCorr_trans (ih1 _ _ rfl hb) (ih2 _ _ hb rfl)
    | null => rw [hb] at hobj; simp [Json.isObj] at hobj
    | bool b2 => rw [hb] at hobj; simp [Json.isObj] at hobj
    | num n2 => rw [hb] at hobj; simp [Json.isObj] at hobj
    | str s2 => rw [hb] at hobj; simp [Json.isObj] at hobj
    | arr l2 => rw [hb] at hobj; simp [Json.isObj] at hobj


/-! ### Scalar time/price condition and its transfer along `JPerm` -/

/-- The mapping's selected time and price values (when both keys are
found) are scalars, so their `str()` rendering cannot be disturbed by
permuting sequences nested inside them. -/
def scalarTPAt (fields : JsonFields) : Prop :=
  ∀ tk pk, findKeyFrom fields timeAliases = some tk →
    findKeyFrom fields priceAliases = some pk →
    ((dictGet fields tk).getD (Json.str [])).isScalar = true ∧
    ((dictGet fields pk).getD (Json.str [])).isScalar = true

/-- Boolean form of `scalarTPAt`, checked at a single mapping: if both a
time key and a price key are selected, the values stored under them are
scalars. -/
def scalarTPAtB (fields : JsonFields) : Bool :=
  match findKeyFrom fields timeAliases, findKeyFrom fields priceAliases with
  | some tk, some pk =>
    ((dictGet fields tk).getD (Json.str [])).isScalar &&
    ((dictGet fields pk).getD (Json.str [])).isScalar
  | _, _ => true

theorem scalarTPAt_of_scalarTPAtB {fields : JsonFields}
    (h : scalarTPAtB fields = true) : scalarTPAt fields := by
  intro tk pk htk hpk
  unfold scalarTPAtB at h
  rw [htk, hpk] at h
  have h2 : (((dictGet fields tk).getD (Json.str [])).isScalar &&
      ((dictGet fields pk).getD (Json.str [])).isScalar) = true := h
  simp only [Bool.and_eq_true] at h2
  exact h2

mutual
/-- Every mapping of the value - the value itself if it is a mapping, and
every mapping reached through sequence elements and mapping values -
satisfies `scalarTPAtB`.  Only actual mappings of the input are checked,
never tail slices of a field list. -/
def allScalarTP : Json → Bool
  | .null => true
  | .bool _ => true
  | .num _ => true
  | .str _ => true
  | .arr items => allScalarTPList items
  | .obj fields => scalarTPAtB fields && allScalarTPFields fields
def allScalarTPList : JsonList → Bool
  | .nil => true
  | .cons j rest => allScalarTP j && allScalarTPList rest
def allScalarTPFields : JsonFields → Bool
  | .nil => true
  | .cons _ v rest => allScalarTP v && allScalarTPFields rest
end

/-- Key lookup depends only on the key list. -/
theorem lookupLower_congr {fs gs : JsonFields}
    (h : fieldsKeys fs = fieldsKeys gs) (t : Str) :
    lookupLower fs t = lookupLower gs t := by
  unfold lookupLower
  rw [h]

theorem findKeyFrom_congr {fs gs : JsonFields}
    (h : fieldsKeys fs = fieldsKeys gs) :
    ∀ aliases, findKeyFrom fs aliases = findKeyFrom gs aliases := by
  intro aliases
  induction aliases with
  | nil => rfl
  | cons a rest ih =>
    simp only [findKeyFrom, lookupLower_congr h a, ih]

theorem fieldsCorr_keys {fs gs : JsonFields} (h : FieldsCorr fs gs) :
    fieldsKeys fs = fieldsKeys gs := by
  induction h with
  | nil => rfl
  | cons k _ _ ih => simp only [fieldsKeys, ih]

theorem fieldsCorr_dictGet {fs gs : JsonFields} (h : FieldsCorr fs gs) (k : Str) :
    (dictGet fs k = none ∧ dictGet gs k = none) ∨
    (∃ v w, dictGet fs k = some v ∧ dictGet gs k = some w ∧ JPerm v w) := by
  induction h with
  | nil => left; exact ⟨rfl, rfl⟩
  | cons k2 hv _ ih =>
    by_cases hk : k2 = k
    · right
      refine ⟨_, _, ?_, ?_, hv⟩ <;> simp [dictGet, hk]
    · simpa [dictGet, hk] using ih

/-- Under the scalar side condition, corresponding mappings emit the same
candidate. -/
theorem emit_eq_of_corr {d : Str} {fs gs : JsonFields}
    (hcorr : FieldsCorr fs gs) (hsc : scalarTPAt fs) :
    emitFromObj d fs = emitFromObj d gs := by
  have hkeys := fieldsCorr_keys hcorr
  have hft := findKeyFrom_congr hkeys timeAliases
  have hfp := findKeyFrom_congr hkeys priceAliases
  unfold emitFromObj
  rw [← hft, ← hfp]
  cases htk : findKeyFrom fs timeAliases with
  | none => rfl
  | some tk =>
    cases hpk : findKeyFrom fs priceAliases with
    | none => rfl
    | some pk =>
      obtain ⟨hts, hps⟩ := hsc tk pk htk hpk
      have htv : (dictGet fs tk).getD (Json.str [])
          = (dictGet gs tk).getD (Json.str []) := by
        rcases fieldsCorr_dictGet hcorr tk with ⟨h1, h2⟩ | ⟨v, w, h1, h2, hvw⟩
        · rw [h1, h2]
        · rw [h1] at hts
          rw [h1, h2, Option.getD_some, Option.getD_some,
            jperm_scalar_eq hvw (by simpa using hts)]
      have hpv : (dictGet fs pk).getD (Json.str [])
          = (dictGet gs pk).getD (Json.str []) := by
        rcases fieldsCorr_dictGet hcorr pk with ⟨h1, h2⟩ | ⟨v, w, h1, h2, hvw⟩
        · rw [h1, h2]
        · rw [h1] at hps
          rw [h1, h2, Option.getD_some, Option.getD_some,
            jperm_scalar_eq hvw (by simpa using hps)]
      simp only []
      rw [htv, hpv]

theorem scalarTPAtB_of_corr {fs gs : JsonFields}
    (hcorr : FieldsCorr fs gs) (h : scalarTPAtB fs = true) :
    scalarTPAtB gs = true := by
  have hkeys := fieldsCorr_keys hcorr
  unfold scalarTPAtB
  rw [← findKeyFrom_congr hkeys timeAliases,
    ← findKeyFrom_congr hkeys priceAliases]
  cases htk : findKeyFrom fs timeAliases with
  | none => rfl
  | some tk =>
    cases hpk : findKeyFrom fs priceAliases with
    | none => rfl
    | some pk =>
      obtain ⟨hts, hps⟩ := scalarTPAt_of_scalarTPAtB h tk pk htk hpk
      show (((dictGet gs tk).getD (Json.str [])).isScalar &&
          ((dictGet gs pk).getD (Json.str [])).isScalar) = true
      simp only [Bool.and_eq_true]
      constructor
      · rcases fieldsCorr_dictGet hcorr tk with ⟨h1, h2⟩ | ⟨v, w, h1, h2, hvw⟩
        · rw [h2]
          simp [Json.isScalar]
        · rw [h1, Option.getD_some] at hts
          rw [h2, Option.getD_some, jperm_scalar_eq hvw hts]
          exact hts
      · rcases fieldsCorr_dictGet hcorr pk with ⟨h1, h2⟩ | ⟨v, w, h1, h2, hvw⟩
        · rw [h2]
          simp [Json.isScalar]
        · rw [h1, Option.getD_some] at hps
          rw [h2, Option.getD_some, jperm_scalar_eq hvw hps]
          exact hps

/-- Transfer of `allScalarTP` along `JPerm`.  The second conjunct carries
the fields-level form through the mapping tails that `JPerm.objCons`
recurses through: a tail is not an actual mapping of the input, so only
the per-value condition is transported for it, never `scalarTPAtB`. -/
theorem allScalarTP_of_jperm {a b : Json} (h : JPerm a b) :
    (allScalarTP a = true → allScalarTP b = true) ∧
    (∀ fs gs, a = .obj fs → b = .obj gs →
      allScalarTPFields fs = true → allScalarTPFields gs = true) := by
  induction h with
  | null => exact ⟨id, by intro fs gs h1 h2 h3; exact absurd h1 (by simp)⟩
  | bool b => exact ⟨id, by intro fs gs h1 h2 h3; exact absurd h1 (by simp)⟩
  | num n => exact ⟨id, by intro fs gs h1 h2 h3; exact absurd h1 (by simp)⟩
  | str s => exact ⟨id, by intro fs gs h1 h2 h3; exact absurd h1 (by simp)⟩
  | arrNil => exact ⟨id, by intro fs gs h1 h2 h3; exact absurd h1 (by simp)⟩
  | arrCons hx hxs ihx ihxs =>
    refine ⟨?_, by intro fs gs h1 h2 h3; exact absurd h1 (by simp)⟩
    intro hs
    simp only [allScalarTP, allScalarTPList, Bool.and_eq_true] at hs ⊢
    exact ⟨ihx.1 hs.1, ihxs.1 hs.2⟩
  | arrSwap x y l =>
    refine ⟨?_, by intro fs gs h1 h2 h3; exact absurd h1 (by simp)⟩
    intro hs
    simp only [allScalarTP, allScalarTPList, Bool.and_eq_true] at hs ⊢
    exact ⟨hs.2.1, hs.1, hs.2.2⟩
  | objNil =>
    refine ⟨id, ?_⟩
    intro fs gs h1 h2 h3
    injection h1 with h1b
    injection h2 with h2b
    subst h1b; subst h2b
    exact h3
  | objCons k hv hf2 ihv ihf =>
    constructor
    · intro hs
      simp only [allScalarTP, allScalarTPFields, Bool.and_eq_true] at hs ⊢
      obtain ⟨hat, hv1, hfs⟩ := hs
      exact ⟨scalarTPAtB_of_corr
          (FieldsCorr.cons k hv (jperm_fields hf2 _ _ rfl rfl)) hat,
        ihv.1 hv1, ihf.2 _ _ rfl rfl hfs⟩
    · intro fs2 gs2 h1 h2 h3
      injection h1 with h1b
      injection h2 with h2b
      subst h1b; subst h2b
      simp only [allScalarTPFields, Bool.and_eq_true] at h3 ⊢
      exact ⟨ihv.1 h3.1, ihf.2 _ _ rfl rfl h3.2⟩
  | trans h1 h2 ih1 ih2 =>
    constructor
    · exact fun hs => ih2.1 (ih1.1 hs)
    · intro fs gs ha hc hfs
      subst ha; subst hc
      have hobj := jperm_isObj h1
      simp only [Json.isObj] at hobj
      cases hb : ‹Json› with
      | obj bs => exact ih2.2 _ _ hb rfl (ih1.2 _ _ rfl hb hfs)
      | null => rw [hb] at hobj; simp [Json.isObj] at hobj
      | bool b2 => rw [hb] at hobj; simp [Json.isObj] at hobj
      | num n2 => rw [hb] at hobj; simp [Json.isObj] at hobj
      | str s2 => rw [hb] at hobj; simp [Json.isObj] at hobj
      | arr l2 => rw [hb] at hobj; simp [Json.isObj] at hobj

/-- Claim C5's core, with a fields-level conjunct so the induction can
pass through mapping tails: the tails are recursed through by
`JPerm.objCons` as pseudo-mappings, but only the values their fields
hold matter there - their own (slice-level) key selection never emits. -/
theorem collect_perm_of_jperm {d : Str} {a b : Json} (h : JPerm a b) :
    (allScalarTP a = true →
      List.Perm (collectSlotsFromJson d a) (collectSlotsFromJson d b)) ∧
    (∀ fs gs, a = .obj fs → b = .obj gs → allScalarTPFields fs = true →
      List.Perm (collectJsonValues d fs) (collectJsonValues d gs)) := by
  induction h with
  | null =>
    exact ⟨fun _ => List.Perm.refl _,
      by intro fs gs h1 h2 h3; exact absurd h1 (by simp)⟩
  | bool b =>
    exact ⟨fun _ => List.Perm.refl _,
      by intro fs gs h1 h2 h3; exact absurd h1 (by simp)⟩
  | num n =>
    exact ⟨fun _ => List.Perm.refl _,
      by intro fs gs h1 h2 h3; exact absurd h1 (by simp)⟩
  | str s =>
    exact ⟨fun _ => List.Perm.refl _,
      by intro fs gs h1 h2 h3; exact absurd h1 (by simp)⟩
  | arrNil =>
    exact ⟨fun _ => List.Perm.refl _,
      by intro fs gs h1 h2 h3; exact absurd h1 (by simp)⟩
  | arrCons hx hxs ihx ihxs =>
    refine ⟨?_, by intro fs gs h1 h2 h3; exact absurd h1 (by simp)⟩
    intro hs
    simp only [allScalarTP, allScalarTPList, Bool.and_eq_true] at hs
    simp only [collectSlotsFromJson, collectJsonList]
    exact List.Perm.append (ihx.1 hs.1)
      (by simpa only [collectSlotsFromJson] using ihxs.1 hs.2)
  | arrSwap x y l =>
    refine ⟨?_, by intro fs gs h1 h2 h3; exact absurd h1 (by simp)⟩
    intro hs
    simp only [collectSlotsFromJson, collectJsonList]
    rw [← List.append_assoc, ← List.append_assoc]
    exact List.Perm.append_right _ List.perm_append_comm
  | objNil =>
    refine ⟨fun _ => List.Perm.refl _, ?_⟩
    intro fs gs h1 h2 h3
    injection h1 with h1b
    injection h2 with h2b
    subst h1b; subst h2b
    exact List.Perm.refl _
  | objCons k hv hf2 ihv ihf =>
    constructor
    · intro hs
      simp only [allScalarTP, allScalarTPFields, Bool.and_eq_true] at hs
      obtain ⟨hat, hv1, hfs⟩ := hs
      have hcorr := FieldsCorr.cons k hv (jperm_fields hf2 _ _ rfl rfl)
      have hemit := emit_eq_of_corr (d := d) hcorr
        (scalarTPAt_of_scalarTPAtB hat)
      simp only [collectSlotsFromJson, collectJsonValues]
      rw [hemit]
      exact List.Perm.append (List.Perm.refl _)
        (List.Perm.append (ihv.1 hv1) (ihf.2 _ _ rfl rfl hfs))
    · intro fs2 gs2 h1 h2 h3
      injection h1 with h1b
      injection h2 with h2b
      subst h1b; subst h2b
      simp only [allScalarTPFields, Bool.and_eq_true] at h3
      simp only [collectJsonValues]
      exact List.Perm.append (ihv.1 h3.1) (ihf.2 _ _ rfl rfl h3.2)
  | trans h1 h2 ih1 ih2 =>
    constructor
    · intro hs
      exact (ih1.1 hs).trans (ih2.1 ((allScalarTP_of_jperm h1).1 hs))
    · intro fs gs ha hc hfs
      subst ha; subst hc
      have hobj := jperm_isObj h1
      simp only [Json.isObj] at hobj
      cases hb : ‹Json› with
      | obj bs =>
        exact (ih1.2 _ _ rfl hb hfs).trans
          (ih2.2 _ _ hb rfl ((allScalarTP_of_jperm h1).2 _ _ rfl hb hfs))
      | null => rw [hb] at hobj; simp [Json.isObj] at hobj
      | bool b2 => rw [hb] at hobj; simp [Json.isObj] at hobj
      | num n2 => rw [hb] at hobj; simp [Json.isObj] at hobj
      | str s2 => rw [hb] at hobj; simp [Json.isObj] at hobj
      | arr l2 => rw [hb] at hobj; simp [Json.isObj] at hobj

/-- Claim C5 (amended): the set of emitted slots is invariant under
permutation of sequence elements, provided every mapping of the payload
that selects both a time and a price key holds scalar values under the
selected keys (without this proviso the stored time/price strings render
a permuted container differently, see the counterexample). -/
theorem claimC5_amended (d : Str) (a b : Json) (hperm : JPerm a b)
    (hscalar : allScalarTP a = true) :
    ∀ s, s ∈ collectSlotsFromJson d a ↔ s ∈ collectSlotsFromJson d b :=
  fun _ => ((collect_perm_of_jperm hperm).1 hscalar).mem_iff

/-- Payload whose time value is a sequence, for the claim C5
counterexample. -/
def jC5a : Json :=
  Json.obj (.cons "time".data
    (Json.arr (.cons (.str "10:30".data) (.cons (.str "10:40".data) .nil)))
    (.cons "price".data (.str "$5".data) .nil))

/-- Payload `jC5a` with the two elements of the time sequence swapped. -/
def jC5b : Json :=
  Json.obj (.cons "time".data
    (Json.arr (.cons (.str "10:40".data) (.cons (.str "10:30".data) .nil)))
    (.cons "price".data (.str "$5".data) .nil))

/-- The slot emitted from `jC5a`. -/
def sC5 : TicketSlot :=
  (collectSlotsFromJson "2026-10-12".data jC5a).headD ⟨[], [], [], []⟩

/-- Counterexample to claim C5 as stated: permuting the sequence stored
under the time key changes the stored time string (Python renders the
whole list), so the emitted slot sets differ. -/
theorem claimC5_counterexample :
    JPerm jC5a jC5b ∧
    sC5 ∈ collectSlotsFromJson "2026-10-12".data jC5a ∧
    sC5 ∉ collectSlotsFromJson "2026-10-12".data jC5b :=
  ⟨JPerm.objCons "time".data
     (JPerm.arrSwap (.str "10:30".data) (.str "10:40".data) .nil)
     (jpermFields_refl _),
   by decide, by decide⟩

/-- Witness payload: the mapping selects scalar time and price values,
while a sequence sits under the shadowed starttime alias and gets
permuted. -/
def jC5w1 : Json :=
  Json.obj (.cons "time".data (.str "10:30".data)
    (.cons "starttime".data
      (Json.arr (.cons (.str "a".data) (.cons (.str "b".data) .nil)))
      (.cons "price".data (.str "$5".data) .nil)))

/-- Payload `jC5w1` with the two elements of the starttime sequence
swapped. -/
def jC5w2 : Json :=
  Json.obj (.cons "time".data (.str "10:30".data)
    (.cons "starttime".data
      (Json.arr (.cons (.str "b".data) (.cons (.str "a".data) .nil)))
      (.cons "price".data (.str "$5".data) .nil)))

/-- Witness for the amended claim C5 at a concrete payload. -/
theorem claimC5_witness :
    JPerm jC5w1 jC5w2 ∧ allScalarTP jC5w1 = true ∧
    (∀ s, s ∈ collectSlotsFromJson "2026-10-12".data jC5w1 ↔
        s ∈ collectSlotsFromJson "2026-10-12".data jC5w2) :=
  have hperm : JPerm jC5w1 jC5w2 :=
    JPerm.objCons "time".data (JPerm.str "10:30".data)
      (JPerm.objCons "starttime".data
        (JPerm.arrSwap (.str "a".data) (.str "b".data) .nil)
        (JPerm.objCons "price".data (JPerm.str "$5".data) JPerm.objNil))
  ⟨hperm, by decide,
   claimC5_amended "2026-10-12".data jC5w1 jC5w2 hperm (by decide)⟩
